import Mathlib

/-!
Verification of the local-map core of the T2 Tarkov Toolbox repository.

The Python sources under `src/modules/local_map/` are shallowly embedded
here over exact rational arithmetic (`ℚ` stands for the IEEE floats of the
source, which the spec itself treats as real numbers).  Each definition
mirrors one Python function; display-only fields (derived scale, rotation,
offsets) that no claim mentions are omitted and noted at the relevant
definition.
-/

namespace T2Map

/-- `Position3D` from `models.py`: world coordinates, `y` is the vertical
height. -/
structure Position3D where
  x : ℚ
  y : ℚ
  z : ℚ
deriving DecidableEq, Repr

/-- `CalibrationPoint` from `models.py`: a correspondence between a game
position and a map pixel.  The `timestamp` field is metadata never read by
any algorithm and is omitted. -/
structure CalibrationPoint where
  game_pos : Position3D
  map_x : ℚ
  map_y : ℚ
deriving DecidableEq, Repr

/-- `CoordinateTransform` from `models.py`: the six affine coefficients with
`map_x = a·game_x + b·game_z + c`, `map_y = d·game_x + e·game_z + f`.
The dataclass defaults give the identity transform.  The derived
display-only fields (`scale_x`, `scale_z`, `offset_x`, `offset_z` and the
angle, which are square roots and arctangents never read back by any
algorithm) are omitted. -/
structure CoordinateTransform where
  a : ℚ := 1
  b : ℚ := 0
  c : ℚ := 0
  d : ℚ := 0
  e : ℚ := 1
  f : ℚ := 0
deriving DecidableEq, Repr

/-- `CoordinateTransform.transform` from `models.py`: apply the affine map
to a game position, returning map pixel coordinates. -/
def CoordinateTransform.transform (t : CoordinateTransform) (p : Position3D) : ℚ × ℚ :=
  (t.a * p.x + t.b * p.z + t.c, t.d * p.x + t.e * p.z + t.f)

/-- A 3-vector of rationals (one row `[game_x, game_z, 1]` of the design
matrix, or one solution vector `[a, b, c]`). -/
structure Vec3 where
  v1 : ℚ
  v2 : ℚ
  v3 : ℚ
deriving DecidableEq, Repr

/-- A symmetric 3×3 matrix accumulator for the normal equations. -/
structure Mat3 where
  m11 : ℚ
  m12 : ℚ
  m13 : ℚ
  m21 : ℚ
  m22 : ℚ
  m23 : ℚ
  m31 : ℚ
  m32 : ℚ
  m33 : ℚ
deriving DecidableEq, Repr

def Mat3.zero : Mat3 := ⟨0, 0, 0, 0, 0, 0, 0, 0, 0⟩

def Vec3.zero : Vec3 := ⟨0, 0, 0⟩

/-- Multiply a `Mat3` by a `Vec3`. -/
def Mat3.mulVec (M : Mat3) (v : Vec3) : Vec3 :=
  ⟨M.m11 * v.v1 + M.m12 * v.v2 + M.m13 * v.v3,
   M.m21 * v.v1 + M.m22 * v.v2 + M.m23 * v.v3,
   M.m31 * v.v1 + M.m32 * v.v2 + M.m33 * v.v3⟩

/-- Gram matrix `AᵀA` of a list of design rows (weighted by `w`). -/
def gramW (rows : List (ℚ × Vec3)) : Mat3 :=
  rows.foldl
    (fun G wr =>
      let w := wr.1
      let r := wr.2
      ⟨G.m11 + w * r.v1 * r.v1, G.m12 + w * r.v1 * r.v2, G.m13 + w * r.v1 * r.v3,
       G.m21 + w * r.v2 * r.v1, G.m22 + w * r.v2 * r.v2, G.m23 + w * r.v2 * r.v3,
       G.m31 + w * r.v3 * r.v1, G.m32 + w * r.v3 * r.v2, G.m33 + w * r.v3 * r.v3⟩)
    Mat3.zero

/-- Right-hand side `Aᵀb` of the normal equations (weighted by `w`). -/
def atbW (rows : List (ℚ × Vec3)) (b : List ℚ) : Vec3 :=
  (rows.zip b).foldl
    (fun h p =>
      let w := p.1.1
      let r := p.1.2
      let t := p.2
      ⟨h.v1 + w * r.v1 * t, h.v2 + w * r.v2 * t, h.v3 + w * r.v3 * t⟩)
    Vec3.zero

/-- A rational polynomial of degree at most 3 in the regularisation
parameter ε, used to take the Tikhonov limit that defines the minimum-norm
least-squares solution. -/
structure Poly3 where
  c0 : ℚ
  c1 : ℚ
  c2 : ℚ
  c3 : ℚ
deriving DecidableEq, Repr

def Poly3.const (a : ℚ) : Poly3 := ⟨a, 0, 0, 0⟩

/-- The polynomial `a + ε`. -/
def Poly3.affine (a : ℚ) : Poly3 := ⟨a, 1, 0, 0⟩

def Poly3.add (p q : Poly3) : Poly3 := ⟨p.c0 + q.c0, p.c1 + q.c1, p.c2 + q.c2, p.c3 + q.c3⟩

def Poly3.sub (p q : Poly3) : Poly3 := ⟨p.c0 - q.c0, p.c1 - q.c1, p.c2 - q.c2, p.c3 - q.c3⟩

/-- Product truncated at degree 3 (exact here: every polynomial that occurs
is a 3×3 determinant with at most three ε-affine factors, so its true degree
is at most 3). -/
def Poly3.mul (p q : Poly3) : Poly3 :=
  ⟨p.c0 * q.c0,
   p.c0 * q.c1 + p.c1 * q.c0,
   p.c0 * q.c2 + p.c1 * q.c1 + p.c2 * q.c0,
   p.c0 * q.c3 + p.c1 * q.c2 + p.c2 * q.c1 + p.c3 * q.c0⟩

def Poly3.coeff (p : Poly3) : ℕ → ℚ
  | 0 => p.c0
  | 1 => p.c1
  | 2 => p.c2
  | _ => p.c3

/-- Index of the lowest-order nonzero coefficient. -/
def Poly3.lowIdx (p : Poly3) : ℕ :=
  if p.c0 ≠ 0 then 0 else if p.c1 ≠ 0 then 1 else if p.c2 ≠ 0 then 2 else 3

/-- Determinant of a 3×3 matrix of polynomials. -/
def det3P (a b c d e f g h i : Poly3) : Poly3 :=
  ((a.mul ((e.mul i).sub (f.mul h))).sub
    (b.mul ((d.mul i).sub (f.mul g)))).add
    (c.mul ((d.mul h).sub (e.mul g)))

/-- `det(G + ε·I)` as a polynomial in ε. -/
def detPoly (G : Mat3) : Poly3 :=
  det3P (.affine G.m11) (.const G.m12) (.const G.m13)
        (.const G.m21) (.affine G.m22) (.const G.m23)
        (.const G.m31) (.const G.m32) (.affine G.m33)

/-- Cramer numerator for unknown 1: column 1 of `G + ε·I` replaced by `h`. -/
def numPoly1 (G : Mat3) (h : Vec3) : Poly3 :=
  det3P (.const h.v1) (.const G.m12) (.const G.m13)
        (.const h.v2) (.affine G.m22) (.const G.m23)
        (.const h.v3) (.const G.m32) (.affine G.m33)

/-- Cramer numerator for unknown 2: column 2 of `G + ε·I` replaced by `h`. -/
def numPoly2 (G : Mat3) (h : Vec3) : Poly3 :=
  det3P (.affine G.m11) (.const h.v1) (.const G.m13)
        (.const G.m21) (.const h.v2) (.const G.m23)
        (.const G.m31) (.const h.v3) (.affine G.m33)

/-- Cramer numerator for unknown 3: column 3 of `G + ε·I` replaced by `h`. -/
def numPoly3 (G : Mat3) (h : Vec3) : Poly3 :=
  det3P (.affine G.m11) (.const G.m12) (.const h.v1)
        (.const G.m21) (.affine G.m22) (.const h.v2)
        (.const G.m31) (.const G.m32) (.const h.v3)

/-- Model of `np.linalg.lstsq(A, b, rcond=None)` restricted to the three
unknown columns used by the solver.  numpy's documented behaviour is to
return the minimum-norm least-squares solution and to raise only when the
SVD fails to converge, which the exact-arithmetic model treats as never:
rank-deficient (collinear) systems are solved, not rejected.  The
minimum-norm solution is computed as the Tikhonov limit
`(AᵀA + ε·I)⁻¹ Aᵀb` as ε → 0⁺: every entry of the Cramer solution is a
ratio of polynomials in ε, and the limit is the ratio of the
lowest-order surviving coefficients. -/
def lstsq3 (rows : List Vec3) (b : List ℚ) : Vec3 :=
  let wrows := rows.map (fun r => ((1 : ℚ), r))
  let G := gramW wrows
  let h := atbW wrows b
  let dp := detPoly G
  let k := dp.lowIdx
  let den := dp.coeff k
  ⟨(numPoly1 G h).coeff k / den, (numPoly2 G h).coeff k / den, (numPoly3 G h).coeff k / den⟩

/-- Design row `[game_x, game_z, 1]` of a calibration point
(`coordinate_transform.py`, construction of `A`). -/
def designRow (p : CalibrationPoint) : Vec3 := ⟨p.game_pos.x, p.game_pos.z, 1⟩

/-- `_calculate_basic_transform` from `coordinate_transform.py`: ordinary
least squares on the rows `[game_x, game_z, 1]`, one solve per target axis.
The geometric fields derived afterwards in the source are display-only and
not modelled. -/
def calculate_basic_transform (points : List CalibrationPoint) : CoordinateTransform :=
  let rows := points.map designRow
  let cx := lstsq3 rows (points.map (·.map_x))
  let cy := lstsq3 rows (points.map (·.map_y))
  { a := cx.v1, b := cx.v2, c := cx.v3, d := cy.v1, e := cy.v2, f := cy.v3 }

/-- Determinant of the (numeric) 3×3 matrix. -/
def Mat3.det (M : Mat3) : ℚ :=
  M.m11 * (M.m22 * M.m33 - M.m23 * M.m32)
    - M.m12 * (M.m21 * M.m33 - M.m23 * M.m31)
    + M.m13 * (M.m21 * M.m32 - M.m22 * M.m31)

/-- Model of `np.linalg.solve(M, v)` for the 3×3 weighted normal equations:
the unique solution by Cramer's rule when `M` is invertible, and the
`LinAlgError` exception (here `none`) when `M` is singular. -/
def solve3 (M : Mat3) (v : Vec3) : Option Vec3 :=
  let dd := M.det
  if dd = 0 then none
  else
    some ⟨(Mat3.mk v.v1 M.m12 M.m13 v.v2 M.m22 M.m23 v.v3 M.m32 M.m33).det / dd,
          (Mat3.mk M.m11 v.v1 M.m13 M.m21 v.v2 M.m23 M.m31 v.v3 M.m33).det / dd,
          (Mat3.mk M.m11 M.m12 v.v1 M.m21 M.m22 v.v2 M.m31 M.m32 v.v3).det / dd⟩

/-- Errors a solver call can signal.  `insufficientPoints` is the
`ValueError` raised for fewer than three calibration points;
`linAlgError` is numpy's exception for a singular `np.linalg.solve`
system in the weighted fit. -/
inductive TransformError where
  | insufficientPoints
  | linAlgError
deriving DecidableEq, Repr

/-- Squared planar (x,z) distance between two game positions.  The source
compares and normalises true Euclidean distances; since the square root is
strictly monotone on nonnegatives, every comparison and every squared ratio
of distances in the source is expressed here on squares, exactly. -/
def dist2 (p q : Position3D) : ℚ := (p.x - q.x) ^ 2 + (p.z - q.z) ^ 2

/-- `_calculate_weighted_transform` from `coordinate_transform.py`,
parametrised by the weight map `wf`.  The source weights each point by
`exp(-0.5·(dᵢ/d_max)²)`, i.e. `wf r = exp(-r/2)` applied to the squared
normalised centroid distance `r`; the exponential is transcendental and has
no exact rational embedding, so the weighted solve is stated for an
arbitrary weight map applied to exactly that rational ratio.  `d_max` is
replaced by `1.0` when the maximal distance is not positive, as in the
source. -/
def calculate_weighted_transform (wf : ℚ → ℚ) (points : List CalibrationPoint) :
    Except TransformError CoordinateTransform :=
  let n : ℚ := points.length
  let cx := (points.map (·.game_pos.x)).sum / n
  let cz := (points.map (·.game_pos.z)).sum / n
  let sqs := points.map (fun p => (p.game_pos.x - cx) ^ 2 + (p.game_pos.z - cz) ^ 2)
  let sqmax := sqs.foldl max 0
  let weights := sqs.map (fun s => wf (if 0 < sqmax then s / sqmax else s))
  let wrows := weights.zip (points.map designRow)
  let M := gramW wrows
  match solve3 M (atbW wrows (points.map (·.map_x))),
        solve3 M (atbW wrows (points.map (·.map_y))) with
  | some cxv, some cyv =>
      .ok { a := cxv.v1, b := cxv.v2, c := cxv.v3, d := cyv.v1, e := cyv.v2, f := cyv.v3 }
  | _, _ => .error .linAlgError

/-- Stable insertion: `x` moves before the first element `h` with
`before x h` and lands after every earlier element.  `sortStable` below
instantiates it so that its output is exactly what CPython's stable sorts
produce. -/
def insertStable (before : α → α → Bool) (x : α) : List α → List α
  | [] => [x]
  | h :: t => if before x h then x :: h :: t else h :: insertStable before x t

/-- Stable insertion sort: with `before x h` the strict key comparison, a
later element never passes an earlier one with an equal key, which is the
defining property of CPython's stable `list.sort`/`sorted`; a stable sort's
output is unique, so this is the embedding of those calls. -/
def sortStable (before : α → α → Bool) (l : List α) : List α :=
  l.foldr (insertStable before) []

/-- Stable ascending sort of (distance, point) pairs, the embedding of
`distances.sort(key=lambda x: x[0])` in `_calculate_local_interpolation`.
In the stable insertion an earlier element `a` goes before a later `b`
exactly when its key is not larger. -/
def sortByDist (l : List (ℚ × CalibrationPoint)) : List (ℚ × CalibrationPoint) :=
  sortStable (fun a b => a.1 ≤ b.1) l

/-- Default neighbour count `k` of `_calculate_local_interpolation`. -/
def localInterpolationK : ℕ := 4

/-- The points kept by `_calculate_local_interpolation`: the first
`min 4 n` entries of the stable distance sort. -/
def nearestPoints (points : List CalibrationPoint) (player_pos : Position3D) :
    List CalibrationPoint :=
  let distances := points.map (fun p => (dist2 player_pos p.game_pos, p))
  ((sortByDist distances).take (min localInterpolationK points.length)).map (·.2)

/-- `_calculate_local_interpolation` from `coordinate_transform.py`: basic
least squares on the `min 4 n` calibration points nearest to the player in
the horizontal plane.  The distance-threshold warning, the log output and
the triangle containment check (`_is_inside_triangle_2d`) only print and
never influence the result, so they are not modelled. -/
def calculate_local_interpolation (points : List CalibrationPoint)
    (player_pos : Position3D) : Except TransformError CoordinateTransform :=
  if points.length < 3 then .error .insufficientPoints
  else .ok (calculate_basic_transform (nearestPoints points player_pos))

/-- RANSAC iteration budget (`max_iterations` default). -/
def ransacMaxIterations : ℕ := 500

/-- RANSAC inlier threshold in pixels (`inlier_threshold` default). -/
def ransacInlierThreshold : ℚ := 10

/-- Fallback point used for list indexing; every index the solver produces
is in range (`random.sample(range(n), 3)` and filtered `range(n)` indices),
so this default is never reached under the theorems' hypotheses. -/
def defaultPoint : CalibrationPoint := ⟨⟨0, 0, 0⟩, 0, 0⟩

/-- Indices of `points` whose reprojection error under `t` is below the
RANSAC threshold: the source compares `sqrt(Δx² + Δy²) < 10`, embedded as
the equivalent `Δx² + Δy² < 10²`. -/
def ransacInliers (points : List CalibrationPoint) (t : CoordinateTransform) : List ℕ :=
  (List.range points.length).filter (fun i =>
    let p := points.getD i defaultPoint
    let pr := t.transform p.game_pos
    (pr.1 - p.map_x) ^ 2 + (pr.2 - p.map_y) ^ 2 < ransacInlierThreshold ^ 2)

/-- State of the RANSAC main loop: `(best_score, best_inliers,
best_transform)`.  `best_transform` is carried as in the source although the
refit step below reads only `best_inliers`. -/
abbrev RansacState := ℕ × List ℕ × Option CoordinateTransform

/-- One iteration of the RANSAC main loop on the sampled index triple `s`
(the source draws `s` with `random.sample(range(n), 3)`; the ambient random
generator is modelled as the list of draws passed in).  The basic fit on
three exact rational points never raises, so the `try/except: continue`
of the source never skips an iteration here. -/
def ransacStep (points : List CalibrationPoint) (st : RansacState) (s : List ℕ) :
    RansacState :=
  let samplePoints := s.map (fun i => points.getD i defaultPoint)
  let cand := calculate_basic_transform samplePoints
  let inl := ransacInliers points cand
  if st.1 < inl.length then (inl.length, inl, some cand) else st

/-- `_calculate_ransac_transform` from `coordinate_transform.py` with the
random draws made explicit: run one `ransacStep` per draw, then refit on the
best inlier set (basic fit for at most 6 inliers, weighted fit otherwise),
falling back to a weighted fit on all points when the best iteration found
fewer than 3 inliers. -/
def calculate_ransac_transform (wf : ℚ → ℚ) (samples : List (List ℕ))
    (points : List CalibrationPoint) : Except TransformError CoordinateTransform :=
  let st := samples.foldl (ransacStep points) (0, [], none)
  let best_inliers := st.2.1
  if best_inliers ≠ [] ∧ 3 ≤ best_inliers.length then
    let inlier_points := best_inliers.map (fun i => points.getD i defaultPoint)
    if inlier_points.length ≤ 6 then .ok (calculate_basic_transform inlier_points)
    else calculate_weighted_transform wf inlier_points
  else calculate_weighted_transform wf points

/-- `calculate_affine_transform` from `coordinate_transform.py`: raise
`ValueError` below three points, choose local interpolation when a player
position is supplied and locality is enabled, otherwise dispatch on the
point count: basic fit for `n ≤ 3`, weighted fit for `4 ≤ n ≤ 6`, RANSAC
for `n > 6`. -/
def calculate_affine_transform (wf : ℚ → ℚ) (samples : List (List ℕ))
    (points : List CalibrationPoint) (player_pos : Option Position3D)
    (use_local_interpolation : Bool) : Except TransformError CoordinateTransform :=
  if points.length < 3 then .error .insufficientPoints
  else if player_pos.isSome ∧ use_local_interpolation ∧ 3 ≤ points.length then
    match player_pos with
    | some q => calculate_local_interpolation points q
    | none => .error .insufficientPoints
  else if points.length ≤ 3 then .ok (calculate_basic_transform points)
  else if points.length ≤ 6 then calculate_weighted_transform wf points
  else calculate_ransac_transform wf samples points

/-- The four fitting strategies of `calculate_affine_transform`. -/
inductive FitStrategy where
  | localInterpolation
  | basic
  | weighted
  | ransac
deriving DecidableEq, Repr

/-- The strategy `calculate_affine_transform` dispatches to, read off the
branch structure of the source (`coordinate_transform.py` lines 41-58):
`none` models the `ValueError` for fewer than three points. -/
def selectStrategy (n : ℕ) (has_player_pos : Bool) (use_local_interpolation : Bool) :
    Option FitStrategy :=
  if n < 3 then none
  else if has_player_pos ∧ use_local_interpolation ∧ 3 ≤ n then some .localInterpolation
  else if n ≤ 3 then some .basic
  else if n ≤ 6 then some .weighted
  else some .ransac

/-- `Region` from `models.py`: the ordered boundary points of a closed
polygon on the base map's pixel plane (no implicit closing duplicate). -/
structure Region where
  points : List (ℚ × ℚ)
deriving DecidableEq, Repr

/-- One iteration of the ray-casting loop of `Region.contains_point`.  The
state carries the `inside` flag and the Python local `xinters` as an
`Option`: it is `none` until first assigned, and reading it while `none`
(which would be a Python `NameError`) is the `.error` outcome.  Note the
source assigns `xinters` only under `p1y != p2y` and the toggle test
`p1x == p2x or map_x <= xinters` short-circuits, reading `xinters` only
when `p1x ≠ p2x`. -/
def rayStep (map_x map_y : ℚ) (st : Bool × Option ℚ) (edge : (ℚ × ℚ) × (ℚ × ℚ)) :
    Except Unit (Bool × Option ℚ) :=
  let ((p1x, p1y), (p2x, p2y)) := edge
  let (inside, xi0) := st
  if map_y > min p1y p2y then
    if map_y ≤ max p1y p2y then
      if map_x ≤ max p1x p2x then
        let xi := if p1y ≠ p2y
          then some ((map_y - p1y) * (p2x - p1x) / (p2y - p1y) + p1x)
          else xi0
        if p1x = p2x then .ok (!inside, xi)
        else
          match xi with
          | some v => .ok (if map_x ≤ v then !inside else inside, xi)
          | none => .error ()
      else .ok (inside, xi0)
    else .ok (inside, xi0)
  else .ok (inside, xi0)

/-- The edges the loop of `Region.contains_point` walks: pairs
`(points[i], points[(i+1) % n])` for `i = 0, …, n-1`, i.e. each point
zipped with its cyclic successor. -/
def Region.edges (r : Region) : List ((ℚ × ℚ) × (ℚ × ℚ)) :=
  match r.points with
  | [] => []
  | a :: rest => (a :: rest).zip (rest ++ [a])

/-- `Region.contains_point` from `models.py` with Python's local-variable
semantics made explicit: a region with fewer than 3 points is `false`
immediately; otherwise the even-odd ray-casting loop runs, and an
(impossible, see the C10 theorem) read of the unassigned `xinters` local
would surface as `.error`. -/
def Region.containsPointE (r : Region) (map_x map_y : ℚ) : Except Unit Bool :=
  if r.points.length < 3 then .ok false
  else do
    let st ← r.edges.foldlM (rayStep map_x map_y) (false, none)
    pure st.1

/-- `Region.contains_point` as the `Bool` the source returns; by the C10
theorem the `.error` branch is unreachable. -/
def Region.contains_point (r : Region) (map_x map_y : ℚ) : Bool :=
  match r.containsPointE map_x map_y with
  | .ok b => b
  | .error _ => false

/-- Pure mirror of `rayStep` used for reasoning: identical on every
reachable branch, and mapped to the (unreachable, see `rayStep_eq_ok`)
stale-read branch by leaving the state unchanged. -/
def rayStepB (map_x map_y : ℚ) (st : Bool × Option ℚ) (edge : (ℚ × ℚ) × (ℚ × ℚ)) :
    Bool × Option ℚ :=
  let ((p1x, p1y), (p2x, p2y)) := edge
  let (inside, xi0) := st
  if map_y > min p1y p2y then
    if map_y ≤ max p1y p2y then
      if map_x ≤ max p1x p2x then
        let xi := if p1y ≠ p2y
          then some ((map_y - p1y) * (p2x - p1x) / (p2y - p1y) + p1x)
          else xi0
        if p1x = p2x then (!inside, xi)
        else
          match xi with
          | some v => (if map_x ≤ v then !inside else inside, xi)
          | none => (inside, xi)
      else (inside, xi0)
    else (inside, xi0)
  else (inside, xi0)

/-- `MapLayer` from `models.py`.  The display metadata (`name`,
`image_path`, `rotation_offset`) is never read by the activation or
validation logic modelled here and is omitted; `region`/
`region_owner_layer_id` are the two optional fields of the source's
region-sharing mechanism. -/
structure MapLayer where
  layer_id : ℤ
  height_min : ℚ
  height_max : ℚ
  calibration_points : List CalibrationPoint := []
  is_base_map : Bool := false
  region : Option Region := none
  region_owner_layer_id : Option ℤ := none
deriving DecidableEq, Repr

/-- `MapLayer.contains_height` from `models.py`. -/
def MapLayer.contains_height (l : MapLayer) (y : ℚ) : Bool :=
  l.height_min ≤ y ∧ y ≤ l.height_max

/-- `MapLayer.is_calibrated` from `models.py`. -/
def MapLayer.is_calibrated (l : MapLayer) : Bool :=
  3 ≤ l.calibration_points.length

/-- `MapConfig` from `models.py` (the `display_name` string is omitted). -/
structure MapConfig where
  map_id : String
  layers : List MapLayer := []
  default_layer_id : ℤ := 0
deriving DecidableEq, Repr

/-- `MapConfig.get_layer_by_id` from `models.py`: first layer with the id. -/
def MapConfig.get_layer_by_id (c : MapConfig) (layer_id : ℤ) : Option MapLayer :=
  c.layers.find? (fun l => l.layer_id = layer_id)

/-- `MapConfig.get_base_map` from `models.py`: first base layer. -/
def MapConfig.get_base_map (c : MapConfig) : Option MapLayer :=
  c.layers.find? (·.is_base_map)

/-- `MapConfig.get_floor_maps` from `models.py`: all non-base layers in
collection order. -/
def MapConfig.get_floor_maps (c : MapConfig) : List MapLayer :=
  c.layers.filter (fun l => !l.is_base_map)

/-- `MapLayer.get_effective_region` from `models.py`: the layer's own
region if present, else one level of indirection through
`region_owner_layer_id`, else none. -/
def MapLayer.get_effective_region (l : MapLayer) (c : MapConfig) : Option Region :=
  match l.region with
  | some r => some r
  | none =>
    match l.region_owner_layer_id with
    | some oid =>
      match c.get_layer_by_id oid with
      | some owner => owner.region
      | none => none
    | none => none

/-- `MapLayer.is_activated` from `models.py`: a base layer is always
activated; a floor layer with no effective region is activated by height
alone; otherwise it needs the height range and, on the base map position,
region containment (no base map position means not activated). -/
def MapLayer.is_activated (l : MapLayer) (player_pos : Position3D)
    (player_map_pos : Option (ℚ × ℚ)) (map_config : Option MapConfig) : Bool :=
  if l.is_base_map then true
  else
    let effective_region :=
      match map_config with
      | some c => l.get_effective_region c
      | none => l.region
    match effective_region with
    | none => l.contains_height player_pos.y
    | some r =>
      if !l.contains_height player_pos.y then false
      else
        match player_map_pos with
        | none => false
        | some (mx, my) => r.contains_point mx my

/-- The stable descending sort used by `MapConfig.get_active_layer`,
embedding `sorted(..., key=lambda l: l.height_max, reverse=True)` (CPython's
`reverse=True` keeps equal-key elements in their original order).  In the
stable insertion an earlier element `x` goes before a later `h` exactly
when its key is not smaller. -/
def sortByHeightDesc (l : List MapLayer) : List MapLayer :=
  sortStable (fun a b => b.height_max ≤ a.height_max) l

/-- `MapConfig.get_active_layer` from `models.py`: map the player position
through the base transform if one is given (the affine map is total, so the
source's `try/except: pass` never fires), scan the floor layers in
descending `height_max` order for the first activated one, then fall back
to the base layer, then to the first layer of the collection. -/
def MapConfig.get_active_layer (c : MapConfig) (player_pos : Position3D)
    (base_map_transform : Option CoordinateTransform) : Option MapLayer :=
  let player_map_pos := base_map_transform.map (fun t => t.transform player_pos)
  let floor_maps := sortByHeightDesc c.get_floor_maps
  match floor_maps.find? (fun l => l.is_activated player_pos player_map_pos (some c)) with
  | some l => some l
  | none =>
    match c.get_base_map with
    | some b => some b
    | none => c.layers.head?

/-- `MapConfigManager` from `config_manager.py`, reduced to the state the
validation logic reads: the maps dictionary (insertion-ordered association
list).  File-persistence glue is out of scope. -/
structure MapConfigManager where
  maps : List (String × MapConfig) := []
deriving DecidableEq, Repr

/-- `MapConfigManager.get_map_config`. -/
def MapConfigManager.get_map_config (m : MapConfigManager) (map_id : String) :
    Option MapConfig :=
  (m.maps.find? (fun e => e.1 = map_id)).map (·.2)

/-- The scan loop of `validate_height_in_region`: skip the layer being
edited and every layer without an *owned* `region` field, and report the
first remaining layer whose owned region has the same point list and whose
height range overlaps (touching endpoints count as disjoint:
`height_max <= layer.height_min or height_min >= layer.height_max`). -/
def validateHeightLoop (layer_id : ℤ) (height_min height_max : ℚ)
    (regionPts : List (ℚ × ℚ)) : List MapLayer → Option ℤ
  | [] => none
  | l :: rest =>
    if l.layer_id = layer_id then validateHeightLoop layer_id height_min height_max regionPts rest
    else
      match l.region with
      | none => validateHeightLoop layer_id height_min height_max regionPts rest
      | some r =>
        if r.points = regionPts ∧
            ¬(height_max ≤ l.height_min ∨ height_min ≥ l.height_max) then
          some l.layer_id
        else validateHeightLoop layer_id height_min height_max regionPts rest

/-- `MapConfigManager.validate_height_in_region` from `config_manager.py`.
`none` is the Ok outcome `(True, None)`; `some lid` is the conflict outcome
`(False, message)` whose message names the layer `lid` (the structured
content of the message string is just that layer's identity). -/
def MapConfigManager.validate_height_in_region (m : MapConfigManager) (map_id : String)
    (layer_id : ℤ) (height_min height_max : ℚ) (region : Option Region) : Option ℤ :=
  match region with
  | none => none
  | some reg =>
    match m.get_map_config map_id with
    | none => none
    | some cfg => validateHeightLoop layer_id height_min height_max reg.points cfg.get_floor_maps

/-- Python's `round` (banker's rounding, half to even), used by the
transform-cache key quantisation. -/
def pyRound (q : ℚ) : ℤ :=
  let fl := ⌊q⌋
  let frac := q - fl
  if frac < 1 / 2 then fl
  else if 1 / 2 < frac then fl + 1
  else if fl % 2 = 0 then fl else fl + 1

/-- A transform-cache key `(map_id, layer_id, player_pos_hash)` from
`map_resource_cache.py`. -/
structure TransformKey where
  map_id : String
  layer_id : ℤ
  player_hash : Option (ℤ × ℤ)
deriving DecidableEq, Repr

/-- Key construction in `MapResourceCache.get_transform`: the planar player
position quantised to the 10-unit grid (`round(v / 10) * 10`); a
`Position3D` dataclass is always truthy, so `if player_pos:` is a `none`
test. -/
def transformKey (map_id : String) (layer_id : ℤ) (player_pos : Option Position3D) :
    TransformKey :=
  { map_id := map_id, layer_id := layer_id,
    player_hash := player_pos.map (fun p => (pyRound (p.x / 10) * 10, pyRound (p.z / 10) * 10)) }

/-- `transform_cache_max_size` from `map_resource_cache.py`. -/
def transform_cache_max_size : ℕ := 50

/-- The transform cache: a Python dict in insertion order, oldest entry
first (`next(iter(dict))` is the first inserted key). -/
abbrev TransformCache := List (TransformKey × CoordinateTransform)

/-- `MapResourceCache.get_transform` from `map_resource_cache.py`, with the
`config_manager.calculate_transform` call modelled by its result `computed`
(that method catches its own exceptions and returns `None` on failure, so
the outer `try/except` never fires).  Returns the looked-up or computed
transform, the new cache state, and the number of solver computations
performed (0 on a cache hit, 1 on a miss).  On a miss the result is cached
only when the computation succeeded, evicting the oldest entry when the
cache is full. -/
def MapResourceCache.get_transform (cache : TransformCache) (key : TransformKey)
    (computed : Option CoordinateTransform) :
    Option CoordinateTransform × TransformCache × ℕ :=
  match cache.find? (fun e => e.1 = key) with
  | some e => (some e.2, cache, 0)
  | none =>
    match computed with
    | some t =>
      let evicted := if transform_cache_max_size ≤ cache.length then cache.drop 1 else cache
      (some t, evicted ++ [(key, t)], 1)
    | none => (none, cache, 1)

/-- `MapResourceCache.invalidate_transform` from `map_resource_cache.py`:
drop every entry whose key carries this `(map_id, layer_id)` pair. -/
def MapResourceCache.invalidate_transform (cache : TransformCache) (map_id : String)
    (layer_id : ℤ) : TransformCache :=
  cache.filter (fun e => ¬(e.1.map_id = map_id ∧ e.1.layer_id = layer_id))

/-! ## Theorems -/

/-- The three calibration points of the spec's concrete transform scenario:
game(100,0,200)→map(500,300), game(150,0,250)→map(600,400),
game(200,0,200)→map(700,300). -/
def scenarioPoints : List CalibrationPoint :=
  [⟨⟨100, 0, 200⟩, 500, 300⟩, ⟨⟨150, 0, 250⟩, 600, 400⟩, ⟨⟨200, 0, 200⟩, 700, 300⟩]

theorem insertStable_perm (p : α → α → Bool) (x : α) (l : List α) :
    (insertStable p x l).Perm (x :: l) := by
  induction l with
  | nil => exact List.Perm.refl _
  | cons h t ih =>
    by_cases hc : p x h
    · simp [insertStable, hc]
    · simpa [insertStable, hc] using (ih.cons h).trans (List.Perm.swap x h t)

theorem sortStable_perm (p : α → α → Bool) (l : List α) : (sortStable p l).Perm l := by
  induction l with
  | nil => exact List.Perm.refl _
  | cons h t ih =>
    exact (insertStable_perm p h (sortStable p t)).trans (ih.cons h)

theorem insertStable_pairwise {R : α → α → Prop} {p : α → α → Bool}
    (hT : Transitive R) (hpt : ∀ a b, p a b = true → R a b)
    (hpf : ∀ a b, p a b = false → R b a) (x : α) {l : List α} (hl : l.Pairwise R) :
    (insertStable p x l).Pairwise R := by
  induction l with
  | nil => simp [insertStable]
  | cons h t ih =>
    rcases List.pairwise_cons.mp hl with ⟨hh, ht⟩
    by_cases hc : p x h
    · simp only [insertStable, if_pos hc]
      refine List.pairwise_cons.mpr ⟨?_, hl⟩
      intro y hy
      rcases List.mem_cons.mp hy with rfl | hyt
      · exact hpt _ _ hc
      · exact hT (hpt _ _ hc) (hh y hyt)
    · simp only [insertStable, if_neg hc]
      refine List.pairwise_cons.mpr ⟨?_, ih ht⟩
      intro y hy
      rcases List.mem_cons.mp ((insertStable_perm p x t).mem_iff.mp hy) with rfl | hyt
      · exact hpf _ _ (Bool.eq_false_iff.mpr hc)
      · exact hh y hyt

theorem sortStable_pairwise {R : α → α → Prop} {p : α → α → Bool}
    (hT : Transitive R) (hpt : ∀ a b, p a b = true → R a b)
    (hpf : ∀ a b, p a b = false → R b a) (l : List α) :
    (sortStable p l).Pairwise R := by
  induction l with
  | nil => simp [sortStable]
  | cons h t ih => exact insertStable_pairwise hT hpt hpf h ih

/-- Every element of the (distance, point) list carries as first component
the squared distance of its own point. -/
theorem sortByDist_key (points : List CalibrationPoint) (q : Position3D)
    (e : ℚ × CalibrationPoint)
    (he : e ∈ sortByDist (points.map (fun p => (dist2 q p.game_pos, p)))) :
    e.1 = dist2 q e.2.game_pos := by
  have hmem := (sortStable_perm _ _).mem_iff.mp he
  rcases List.mem_map.mp hmem with ⟨p, _, rfl⟩
  rfl

/-- The selected nearest points, followed by the rest of the list, form a
permutation of all points, and every selected point is at least as close to
the query as every unselected one. -/
theorem nearestPoints_spec (points : List CalibrationPoint) (q : Position3D) :
    (nearestPoints points q).length = min 4 points.length ∧
    ∃ rest, (nearestPoints points q ++ rest).Perm points ∧
      ∀ a ∈ nearestPoints points q, ∀ b ∈ rest,
        dist2 q a.game_pos ≤ dist2 q b.game_pos := by
  classical
  set dl := points.map (fun p => (dist2 q p.game_pos, p)) with hdl
  set s := sortByDist dl with hs
  set k := min localInterpolationK points.length with hk
  have hslen : s.length = points.length := by
    have := (sortStable_perm (fun a b : ℚ × CalibrationPoint => decide (a.1 ≤ b.1)) dl).length_eq
    simpa [hs, sortByDist, hdl] using this
  have hsplit : s.take k ++ s.drop k = s := List.take_append_drop k s
  have hpw : s.Pairwise (fun a b : ℚ × CalibrationPoint => a.1 ≤ b.1) := by
    refine sortStable_pairwise ?_ ?_ ?_ dl
    · intro a b c hab hbc
      exact le_trans hab hbc
    · intro a b h
      exact of_decide_eq_true h
    · intro a b h
      exact le_of_not_le (of_decide_eq_false h)
  have hcross : ∀ a ∈ s.take k, ∀ b ∈ s.drop k, a.1 ≤ b.1 := by
    have := List.pairwise_append.mp (hsplit ▸ hpw)
    exact this.2.2
  constructor
  · have : (nearestPoints points q).length = min k s.length := by
      simp [nearestPoints, hs, hk, hdl, sortByDist]
    rw [this, hslen, hk]
    simp [localInterpolationK, min_assoc]
  · refine ⟨(s.drop k).map (·.2), ?_, ?_⟩
    · have hmap : nearestPoints points q ++ (s.drop k).map (·.2) = s.map (·.2) := by
        rw [nearestPoints]
        simp only [← hdl, ← hs, ← hk]
        rw [← List.map_append, hsplit]
      rw [hmap]
      have hperm : (s.map (·.2)).Perm (dl.map (·.2)) :=
        (sortStable_perm _ dl).map (·.2)
      have hdl2 : dl.map (·.2) = points := by
        rw [hdl, List.map_map]
        have hid : ((fun x : ℚ × CalibrationPoint => x.2) ∘
            fun p => (dist2 q p.game_pos, p)) = id := rfl
        rw [hid, List.map_id]
      exact hdl2 ▸ hperm
    · intro a ha b hb
      rw [nearestPoints] at ha
      simp only [← hdl, ← hs, ← hk] at ha
      rcases List.mem_map.mp ha with ⟨ea, hea, rfl⟩
      rcases List.mem_map.mp hb with ⟨eb, heb, rfl⟩
      have hka := sortByDist_key points q ea ((List.take_subset k s) hea)
      have hkb := sortByDist_key points q eb ((List.drop_subset k s) heb)
      rw [← hka, ← hkb]
      exact hcross ea hea eb heb

/-- The strategy selection exactly as claim C1 words it: locality first,
basic for n ≤ 3, basic (ordinary least squares over all points) for
4 ≤ n ≤ 6, RANSAC for n > 6. -/
def claimedStrategyC1 (n : ℕ) (has_player_pos use_local : Bool) : Option FitStrategy :=
  if n < 3 then none
  else if has_player_pos ∧ use_local then some .localInterpolation
  else if n ≤ 3 then some .basic
  else if 4 ≤ n ∧ n ≤ 6 then some .basic
  else some .ransac

/-- Claim C1 as stated is false at n = 4 with no query position: the code
dispatches 4-to-6-point fits to the *weighted* least-squares method
(`_calculate_weighted_transform`), not the basic one the claim names. -/
theorem C1_counterexample :
    selectStrategy 4 false true = some .weighted ∧
    claimedStrategyC1 4 false true = some .basic ∧
    selectStrategy 4 false true ≠ claimedStrategyC1 4 false true := by
  decide

/-- Claim C1 (amended): the solver picks its strategy deterministically —
with a query position and locality enabled it basic-fits the min(4, n)
points nearest the query in the horizontal x,z plane; otherwise n ≤ 3 gets
the basic fit, 4 ≤ n ≤ 6 the *weighted* fit, and n > 6 the RANSAC fit. -/
theorem C1_strategy_dispatch (wf : ℚ → ℚ) (samples : List (List ℕ))
    (points : List CalibrationPoint) (player_pos : Option Position3D) (ul : Bool)
    (h3 : 3 ≤ points.length) :
    (∀ q, player_pos = some q → ul = true →
      calculate_affine_transform wf samples points player_pos ul =
        .ok (calculate_basic_transform (nearestPoints points q))) ∧
    (player_pos = none ∨ ul = false →
      calculate_affine_transform wf samples points player_pos ul =
        (if points.length ≤ 3 then .ok (calculate_basic_transform points)
         else if points.length ≤ 6 then calculate_weighted_transform wf points
         else calculate_ransac_transform wf samples points)) ∧
    (∀ q, (nearestPoints points q).length = min 4 points.length) ∧
    (∀ q, ∃ rest, (nearestPoints points q ++ rest).Perm points ∧
      ∀ a ∈ nearestPoints points q, ∀ b ∈ rest,
        dist2 q a.game_pos ≤ dist2 q b.game_pos) := by
  have hn3 : ¬points.length < 3 := by omega
  refine ⟨?_, ?_, fun q => (nearestPoints_spec points q).1,
    fun q => (nearestPoints_spec points q).2⟩
  · rintro q rfl rfl
    simp [calculate_affine_transform, hn3, h3, calculate_local_interpolation]
  · rintro (rfl | rfl)
    · simp [calculate_affine_transform, hn3]
    · simp [calculate_affine_transform, hn3]

/-- Witness for the C1 amended theorem: three points and no query position
dispatch to the basic fit over all points. -/
theorem C1_strategy_dispatch_witness :
    calculate_affine_transform id [] scenarioPoints none true =
      .ok (calculate_basic_transform scenarioPoints) := by
  have h := (C1_strategy_dispatch id [] scenarioPoints none true (by decide)).2.1
    (Or.inl rfl)
  simpa using h

/-- Claim C3 as stated is false: the basic fit through the three scenario
points is the exact interpolant `map_x = 2·game_x + 300`,
`map_y = 2·game_z - 100`, so game (125, 0, 225) lands at (550, 350) —
the x pixel misses the claimed 600 by 50, far beyond any small
tolerance. -/
theorem C3_counterexample :
    (calculate_basic_transform scenarioPoints).transform ⟨125, 0, 225⟩ ≠ (600, 350) ∧
    ((calculate_basic_transform scenarioPoints).transform ⟨125, 0, 225⟩).1 - 600 = -50 := by
  norm_num [calculate_basic_transform, scenarioPoints, lstsq3, gramW, atbW, designRow,
    detPoly, numPoly1, numPoly2, numPoly3, det3P, Poly3.mul, Poly3.add, Poly3.sub,
    Poly3.const, Poly3.affine, Poly3.lowIdx, Poly3.coeff, Mat3.zero, Vec3.zero,
    CoordinateTransform.transform, Prod.ext_iff]

/-- Claim C3 (amended): fitting the basic transform to the three scenario
calibration points and applying it to game position (125, 0, 225) yields
map coordinates exactly (550, 350) — not (600, 350). -/
theorem C3_basic_fit_scenario :
    (calculate_basic_transform scenarioPoints).transform ⟨125, 0, 225⟩ = (550, 350) := by
  norm_num [calculate_basic_transform, scenarioPoints, lstsq3, gramW, atbW, designRow,
    detPoly, numPoly1, numPoly2, numPoly3, det3P, Poly3.mul, Poly3.add, Poly3.sub,
    Poly3.const, Poly3.affine, Poly3.lowIdx, Poly3.coeff, Mat3.zero, Vec3.zero,
    CoordinateTransform.transform]

/-- Points collinear in the (x,z) plane (all on the line z = 0), each fit
exactly by `map_x = 2x + 1`, `map_y = 2x + 2`. -/
def collinearPoints : List CalibrationPoint :=
  [⟨⟨0, 0, 0⟩, 1, 2⟩, ⟨⟨1, 0, 0⟩, 3, 4⟩, ⟨⟨2, 0, 0⟩, 5, 6⟩]

/-- Singularity of the design matrix: the Gram matrix `AᵀA` of the rows
`[game_x, game_z, 1]` has zero determinant, which over ℚ is exactly
collinearity of the (x,z) game positions. -/
def designSingular (points : List CalibrationPoint) : Bool :=
  (gramW ((points.map designRow).map (fun r => ((1 : ℚ), r)))).det = 0

/-- Claim C2 as stated is false: on three collinear calibration points the
solver signals no error at all — it silently returns the minimum-norm
least-squares transform (here `map_x = 2x + 1`, `map_y = 2x + 2`, which is
neither an error nor the neutral/identity transform).  No
`DegenerateCalibration`-style error exists in the code. -/
theorem C2_counterexample :
    designSingular collinearPoints = true ∧
    calculate_affine_transform id [] collinearPoints none true =
      .ok { a := 2, b := 0, c := 1, d := 2, e := 0, f := 2 } ∧
    ({ a := 2, b := 0, c := 1, d := 2, e := 0, f := 2 } : CoordinateTransform) ≠ {} := by
  refine ⟨?_, ?_, ?_⟩ <;>
    norm_num [designSingular, collinearPoints, calculate_affine_transform,
      calculate_local_interpolation, calculate_basic_transform, lstsq3, gramW, atbW,
      designRow, detPoly, numPoly1, numPoly2, numPoly3, det3P, Poly3.mul, Poly3.add,
      Poly3.sub, Poly3.const, Poly3.affine, Poly3.lowIdx, Poly3.coeff, Mat3.zero,
      Vec3.zero, Mat3.det, CoordinateTransform.mk.injEq]

/-- Claim C2 (amended): for three calibration points whose game positions
are collinear in the x,z plane (singular design matrix) and no query
position, the solver returns `.ok` on the minimum-norm least-squares
transform — finite coefficients, no error signalled, no silent fallback to
the identity transform; only the weighted fit (used for 4–6 points and for
large RANSAC refits or fallbacks) can fail, with numpy's unnamed
`LinAlgError`. -/
theorem C2_collinear_minimum_norm (wf : ℚ → ℚ) (samples : List (List ℕ))
    (points : List CalibrationPoint) (use_local : Bool)
    (h3 : points.length = 3) (_hcol : designSingular points = true) :
    calculate_affine_transform wf samples points none use_local =
      .ok (calculate_basic_transform points) := by
  simp [calculate_affine_transform, h3]

/-- Witness for the C2 amended theorem at the concrete collinear triple. -/
theorem C2_collinear_minimum_norm_witness :
    calculate_affine_transform id [] collinearPoints none true =
      .ok (calculate_basic_transform collinearPoints) :=
  C2_collinear_minimum_norm id [] collinearPoints true (by decide)
    (by norm_num [designSingular, collinearPoints, gramW, designRow, Mat3.zero, Mat3.det])

/-- Each loop step of the containment test is exception-free: the stale
`xinters` read would require a horizontal edge (`p1y = p2y`) to pass both
the strict lower and the non-strict upper y-filters, which is impossible,
and on every other branch the step agrees with its pure mirror. -/
theorem rayStep_eq_ok (mx my : ℚ) (st : Bool × Option ℚ) (e : (ℚ × ℚ) × (ℚ × ℚ)) :
    rayStep mx my st e = .ok (rayStepB mx my st e) := by
  obtain ⟨⟨p1x, p1y⟩, p2x, p2y⟩ := e
  obtain ⟨inside, xi0⟩ := st
  simp only [rayStep, rayStepB]
  by_cases h1 : my > min p1y p2y
  · by_cases h2 : my ≤ max p1y p2y
    · by_cases h3 : mx ≤ max p1x p2x
      · have hy : p1y ≠ p2y := by
          intro hEq
          rw [hEq, min_self] at h1
          rw [hEq, max_self] at h2
          linarith
        by_cases hx : p1x = p2x <;> simp [h1, h2, h3, hy, hx] <;> split <;> rfl
      · simp [h1, h2, h3]
    · simp [h1, h2]
  · simp [h1]

/-- The effectful fold of the containment loop never fails and computes the
pure fold. -/
theorem foldlM_rayStep (mx my : ℚ) (edges : List ((ℚ × ℚ) × (ℚ × ℚ)))
    (st : Bool × Option ℚ) :
    edges.foldlM (rayStep mx my) st = .ok (edges.foldl (rayStepB mx my) st) := by
  induction edges generalizing st with
  | nil => rfl
  | cons e t ih =>
    rw [List.foldlM_cons, rayStep_eq_ok]
    simpa using ih (rayStepB mx my st e)

/-- Claim C10: the containment test is total on every region (including
degenerate polygons) and every query point — the `xinters` local is read
only in iterations whose edge has `p1y ≠ p2y` (a horizontal edge can never
pass both y-range filters), so no stale or missing `xinters` is consumed
and no exception is raised; the run always produces the boolean
`contains_point` returns. -/
theorem C10_contains_point_total (r : Region) (mx my : ℚ) :
    r.containsPointE mx my = .ok (r.contains_point mx my) := by
  have hE : ∃ b, r.containsPointE mx my = .ok b := by
    unfold Region.containsPointE
    split
    · exact ⟨false, rfl⟩
    · refine ⟨(r.edges.foldl (rayStepB mx my) (false, none)).1, ?_⟩
      rw [bind_pure_comp]
      rw [foldlM_rayStep]
      rfl
  obtain ⟨b, hb⟩ := hE
  rw [Region.contains_point, hb]

/-- Claim C7: invalidation for a (map_id, layer_id) pair removes exactly
the entries keyed by that pair (an order-preserving sublist of the cache
remains, every other entry untouched), and the next lookup for an
invalidated key performs exactly one new solver computation and returns
that computation's result, never the pre-invalidation value. -/
theorem C7_invalidate_exact (cache : TransformCache) (m : String) (l : ℤ) :
    (MapResourceCache.invalidate_transform cache m l).Sublist cache ∧
    (∀ k v, (k, v) ∈ MapResourceCache.invalidate_transform cache m l ↔
      ((k, v) ∈ cache ∧ ¬(k.map_id = m ∧ k.layer_id = l))) ∧
    (∀ key computed, key.map_id = m → key.layer_id = l →
      (MapResourceCache.get_transform (MapResourceCache.invalidate_transform cache m l)
          key computed).1 = computed ∧
      (MapResourceCache.get_transform (MapResourceCache.invalidate_transform cache m l)
          key computed).2.2 = 1) := by
  refine ⟨List.filter_sublist _, ?_, ?_⟩
  · intro k v
    simp [MapResourceCache.invalidate_transform, List.mem_filter]
    tauto
  · intro key computed hm hl
    have hnone : (MapResourceCache.invalidate_transform cache m l).find?
        (fun e => e.1 = key) = none := by
      rw [List.find?_eq_none]
      intro e he
      rcases List.mem_filter.mp he with ⟨_, hp⟩
      intro hek
      have hek' : e.1 = key := of_decide_eq_true hek
      rw [hek', hm, hl] at hp
      simp at hp
    cases computed with
    | none => simp [MapResourceCache.get_transform, hnone]
    | some t => simp [MapResourceCache.get_transform, hnone]

/-- Two distinct cached transforms and a freshly computed one, for the C7
witness. -/
def cacheW : TransformCache :=
  [(⟨"customs", 0, none⟩, { a := 2, c := 1 }), (⟨"woods", 1, none⟩, { a := 3, c := 4 })]

/-- Witness for C7 at a concrete cache: after invalidating ("customs", 0),
a lookup for that key returns the newly computed transform with exactly one
solver call. -/
theorem C7_invalidate_exact_witness :
    (MapResourceCache.get_transform
        (MapResourceCache.invalidate_transform cacheW "customs" 0)
        ⟨"customs", 0, none⟩ (some { a := 7 })).1 = some { a := 7 } ∧
    (MapResourceCache.get_transform
        (MapResourceCache.invalidate_transform cacheW "customs" 0)
        ⟨"customs", 0, none⟩ (some { a := 7 })).2.2 = 1 :=
  (C7_invalidate_exact cacheW "customs" 0).2.2 ⟨"customs", 0, none⟩
    (some { a := 7 }) rfl rfl

/-- Claim C4: a non-base candidate layer is activated iff the player height
lies in the closed range [height_min, height_max] and, when the layer has
an effective region (its own or resolved through its region owner), a base
map position is present and lies inside that region; with no effective
region height alone decides, and with an effective region but no base map
position the layer is never activated. -/
theorem C4_is_activated_iff (l : MapLayer) (cfg : MapConfig) (player_pos : Position3D)
    (player_map_pos : Option (ℚ × ℚ)) (hbase : l.is_base_map = false) :
    l.is_activated player_pos player_map_pos (some cfg) = true ↔
      ((l.height_min ≤ player_pos.y ∧ player_pos.y ≤ l.height_max) ∧
        match l.get_effective_region cfg with
        | none => True
        | some r => ∃ p, player_map_pos = some p ∧ r.contains_point p.1 p.2 = true) := by
  rw [MapLayer.is_activated]
  rw [hbase]
  simp only [Bool.false_eq_true, if_false]
  cases hreg : l.get_effective_region cfg with
  | none =>
    simp [MapLayer.contains_height]
  | some r =>
    cases player_map_pos with
    | none =>
      simp [MapLayer.contains_height]
    | some p =>
      by_cases hh : l.contains_height player_pos.y = true
      · have hh' : (l.height_min ≤ player_pos.y ∧ player_pos.y ≤ l.height_max) := by
          simpa [MapLayer.contains_height] using hh
        simp [hh, hh']
      · have hh' : ¬(l.height_min ≤ player_pos.y ∧ player_pos.y ≤ l.height_max) := by
          simpa [MapLayer.contains_height] using hh
        simp [hh, hh']

/-- A concrete map configuration for the C4 witness: one base layer, one
floor layer owning a unit-square region spanning heights 0 to 3. -/
def cfgW : MapConfig :=
  { map_id := "customs",
    layers :=
      [{ layer_id := 0, height_min := -100, height_max := 100, is_base_map := true },
       { layer_id := 1, height_min := 0, height_max := 3,
         region := some ⟨[(0, 0), (10, 0), (10, 10), (0, 10)]⟩ }] }

/-- The floor layer of `cfgW`. -/
def floorW : MapLayer :=
  { layer_id := 1, height_min := 0, height_max := 3,
    region := some ⟨[(0, 0), (10, 0), (10, 10), (0, 10)]⟩ }

/-- Witness for C4 at the concrete floor layer: with an effective region and
no base-map position, the layer is not activated even at a valid height. -/
theorem C4_is_activated_iff_witness :
    floorW.is_activated ⟨0, 1, 0⟩ none (some cfgW) = false := by
  have h := C4_is_activated_iff floorW cfgW ⟨0, 1, 0⟩ none rfl
  by_contra hne
  have htrue : floorW.is_activated ⟨0, 1, 0⟩ none (some cfgW) = true := by
    revert hne
    cases floorW.is_activated ⟨0, 1, 0⟩ none (some cfgW) <;> simp
  have := h.mp htrue
  rw [show floorW.get_effective_region cfgW =
      some ⟨[(0, 0), (10, 0), (10, 10), (0, 10)]⟩ from rfl] at this
  obtain ⟨-, p, hp, -⟩ := this
  exact Option.noConfusion hp

/-- The height-conflict condition exactly as claim C8 words it: some other
floor layer whose *effective* region (owned or resolved through its region
owner) has an identical point set and whose height range is not disjoint
from the queried one. -/
def heightConflictClaimC8 (cfg : MapConfig) (layer_id : ℤ) (height_min height_max : ℚ)
    (reg : Region) : Prop :=
  ∃ l ∈ cfg.get_floor_maps, l.layer_id ≠ layer_id ∧
    (∃ r, l.get_effective_region cfg = some r ∧ r.points = reg.points) ∧
    ¬(height_max ≤ l.height_min ∨ height_min ≥ l.height_max)

/-- The shared triangular region of the C8 scenario. -/
def regC8 : Region := ⟨[(0, 0), (10, 0), (0, 10)]⟩

/-- The C8 referencing layer: no own region, references layer 1's region,
spans heights 0–5. -/
def refLayerC8 : MapLayer :=
  { layer_id := 2, height_min := 0, height_max := 5, region_owner_layer_id := some 1 }

/-- C8 scenario: floor layer 1 owns the region at heights 100–200; floor
layer 2 *references* layer 1's region and spans heights 0–5. -/
def cfgC8 : MapConfig :=
  { map_id := "customs",
    layers :=
      [{ layer_id := 0, height_min := -100, height_max := 100, is_base_map := true },
       { layer_id := 1, height_min := 100, height_max := 200, region := some regC8 },
       refLayerC8] }

/-- The manager holding the C8 scenario map. -/
def mgrC8 : MapConfigManager := { maps := [("customs", cfgC8)] }

/-- Claim C8 as stated is false: validating heights 0–5 for a new layer 3
with a region identical to the shared one conflicts (per the claim) with
the *referencing* layer 2 (effective region identical, heights 0–5 overlap),
yet the code returns Ok — its scan skips every layer whose own `region`
field is `None`, so referenced geometry is never checked. -/
theorem C8_counterexample :
    mgrC8.validate_height_in_region "customs" 3 0 5 (some regC8) = none ∧
    heightConflictClaimC8 cfgC8 3 0 5 regC8 := by
  constructor
  · norm_num [MapConfigManager.validate_height_in_region, MapConfigManager.get_map_config,
      mgrC8, cfgC8, regC8, refLayerC8, MapConfig.get_floor_maps, validateHeightLoop]
  · refine ⟨refLayerC8, ?_, ?_, ⟨regC8, ?_, rfl⟩, ?_⟩
    · norm_num [cfgC8, refLayerC8, MapConfig.get_floor_maps]
    · norm_num [refLayerC8]
    · norm_num [MapLayer.get_effective_region, cfgC8, refLayerC8,
        MapConfig.get_layer_by_id, List.find?]
    · norm_num [refLayerC8]

/-- The scan predicate of the amended claim C8: another floor layer that
*owns* a region with the same point list and strictly overlapping
heights. -/
def ownedConflictPred (layer_id : ℤ) (height_min height_max : ℚ)
    (regionPts : List (ℚ × ℚ)) (l : MapLayer) : Bool :=
  decide (l.layer_id ≠ layer_id) &&
    l.region.any (fun r => decide (r.points = regionPts)) &&
    decide (¬(height_max ≤ l.height_min ∨ height_min ≥ l.height_max))

theorem validateHeightLoop_eq_find (layer_id : ℤ) (height_min height_max : ℚ)
    (regionPts : List (ℚ × ℚ)) (ls : List MapLayer) :
    validateHeightLoop layer_id height_min height_max regionPts ls =
      (ls.find? (ownedConflictPred layer_id height_min height_max regionPts)).map
        (·.layer_id) := by
  induction ls with
  | nil => rfl
  | cons l rest ih =>
    by_cases h1 : l.layer_id = layer_id
    · rw [validateHeightLoop, if_pos h1,
        List.find?_cons_of_neg _ (by simp [ownedConflictPred, h1]), ih]
    · cases hr : l.region with
      | none =>
        simp only [validateHeightLoop, hr]
        rw [if_neg h1, List.find?_cons_of_neg _ (by simp [ownedConflictPred, hr]), ih]
      | some r =>
        by_cases h2 : r.points = regionPts ∧
            ¬(height_max ≤ l.height_min ∨ height_min ≥ l.height_max)
        · simp only [validateHeightLoop, hr]
          rw [if_neg h1, if_pos h2,
            List.find?_cons_of_pos _ (by simp [ownedConflictPred, h1, hr, h2.1, h2.2])]
          rfl
        · have hpredf : ownedConflictPred layer_id height_min height_max regionPts l =
              false := by
            rcases Decidable.not_and_iff_or_not.mp h2 with h | h
            · simp [ownedConflictPred, hr, h]
            · have hov : height_max ≤ l.height_min ∨ height_min ≥ l.height_max :=
                Decidable.not_not.mp h
              simp [ownedConflictPred, hr, hov]
          simp only [validateHeightLoop, hr]
          rw [if_neg h1, if_neg h2,
            List.find?_cons_of_neg _ (by rw [hpredf]; simp), ih]

/-- Claim C8 (amended): height validation with a region scans only the
other floor layers that *own* a region themselves (layers referencing
another layer's region are skipped); it reports the first such layer whose
owned region has an identical point list and whose height range strictly
overlaps [height_min, height_max] (ranges touching at an endpoint count as
disjoint), and returns Ok otherwise. -/
theorem C8_validate_height_owned_only (mgr : MapConfigManager) (map_id : String)
    (cfg : MapConfig) (layer_id : ℤ) (height_min height_max : ℚ) (reg : Region)
    (hcfg : mgr.get_map_config map_id = some cfg) :
    mgr.validate_height_in_region map_id layer_id height_min height_max (some reg) =
      (cfg.get_floor_maps.find?
          (ownedConflictPred layer_id height_min height_max reg.points)).map
        (·.layer_id) := by
  rw [MapConfigManager.validate_height_in_region]
  simp only [hcfg]
  exact validateHeightLoop_eq_find layer_id height_min height_max reg.points
    cfg.get_floor_maps

/-- Witness for the C8 amended theorem at the concrete scenario manager. -/
theorem C8_validate_height_owned_only_witness :
    mgrC8.validate_height_in_region "customs" 3 0 5 (some regC8) =
      (cfgC8.get_floor_maps.find? (ownedConflictPred 3 0 5 regC8.points)).map
        (·.layer_id) :=
  C8_validate_height_owned_only mgrC8 "customs" cfgC8 3 0 5 regC8 rfl

/-- The candidate order exactly as claim C5 words it: `height_max`
descending, ties broken by `layer_id` ascending. -/
def claimBefore (a b : MapLayer) : Prop :=
  b.height_max < a.height_max ∨
    (a.height_max = b.height_max ∧ a.layer_id < b.layer_id)

instance (a b : MapLayer) : Decidable (claimBefore a b) := by
  unfold claimBefore
  infer_instance

/-- Sorting the candidates by the claim's order. -/
def claimOrderSort (l : List MapLayer) : List MapLayer :=
  sortStable (fun a b => decide (claimBefore a b)) l

/-- Layer resolution exactly as claim C5 words it: first activated
candidate in the claim's total order, else the base layer, else the first
layer of the collection. -/
def resolveClaimC5 (cfg : MapConfig) (player_pos : Position3D)
    (base_map_transform : Option CoordinateTransform) : Option MapLayer :=
  let player_map_pos := base_map_transform.map (fun t => t.transform player_pos)
  match (claimOrderSort cfg.get_floor_maps).find?
      (fun l => l.is_activated player_pos player_map_pos (some cfg)) with
  | some l => some l
  | none =>
    match cfg.get_base_map with
    | some b => some b
    | none => cfg.layers.head?

theorem claimBefore_trans {a b c : MapLayer} (hab : claimBefore a b)
    (hbc : claimBefore b c) : claimBefore a c := by
  rcases hab with h | ⟨he, hi⟩ <;> rcases hbc with h' | ⟨he', hi'⟩
  · exact Or.inl (lt_trans h' h)
  · exact Or.inl (he' ▸ h)
  · exact Or.inl (he ▸ h')
  · exact Or.inr ⟨he.trans he', lt_trans hi hi'⟩

theorem claimBefore_asymm {a b : MapLayer} (hab : claimBefore a b) :
    ¬claimBefore b a := by
  rintro (h | ⟨he, hi⟩) <;> rcases hab with h' | ⟨he', hi'⟩
  · exact absurd h (lt_asymm h')
  · exact absurd h (he' ▸ lt_irrefl _)
  · exact absurd h' (he ▸ lt_irrefl _)
  · exact absurd hi (lt_asymm hi')

/-- Two lists that are permutations of each other and both sorted under an
asymmetric relation are equal. -/
theorem perm_pairwise_asymm_eq {r : α → α → Prop} (ha : ∀ a b, r a b → ¬r b a) :
    ∀ {l₁ l₂ : List α}, l₁.Perm l₂ → l₁.Pairwise r → l₂.Pairwise r → l₁ = l₂ := by
  intro l₁
  induction l₁ with
  | nil => intro l₂ hp _ _; exact (hp.nil_eq).symm ▸ rfl
  | cons h₁ t₁ ih =>
    intro l₂ hp hp₁ hp₂
    cases l₂ with
    | nil => exact absurd hp.symm (by simp)
    | cons h₂ t₂ =>
      rcases List.pairwise_cons.mp hp₁ with ⟨hh₁, ht₁⟩
      rcases List.pairwise_cons.mp hp₂ with ⟨hh₂, ht₂⟩
      by_cases he : h₁ = h₂
      · subst he
        rw [ih hp.cons_inv ht₁ ht₂]
      · exfalso
        have h₁mem : h₁ ∈ t₂ := by
          have : h₁ ∈ h₂ :: t₂ := hp.mem_iff.mp (List.mem_cons_self _ _)
          exact (List.mem_cons.mp this).resolve_left he
        have h₂mem : h₂ ∈ t₁ := by
          have : h₂ ∈ h₁ :: t₁ := hp.mem_iff.mpr (List.mem_cons_self _ _)
          exact (List.mem_cons.mp this).resolve_left (fun hx => he hx.symm)
        exact ha _ _ (hh₁ h₂ h₂mem) (hh₂ h₁ h₁mem)

/-- Inserting a layer whose id differs from everything in a claim-sorted
list, by the stable descending height comparison, keeps the list
claim-sorted, provided the inserted layer's id is *smaller* (it comes
earlier in the original ascending-id collection). -/
theorem insertHeight_claim_pairwise (x : MapLayer) :
    ∀ {s : List MapLayer}, s.Pairwise claimBefore →
      (∀ y ∈ s, x.layer_id < y.layer_id) →
      (insertStable (fun a b => decide (b.height_max ≤ a.height_max)) x s).Pairwise
        claimBefore := by
  intro s
  induction s with
  | nil => intro _ _; simp [insertStable]
  | cons h rest ih =>
    intro hs hid
    rcases List.pairwise_cons.mp hs with ⟨hh, hrest⟩
    by_cases hc : h.height_max ≤ x.height_max
    · simp only [insertStable, decide_eq_true_eq, if_pos hc]
      refine List.pairwise_cons.mpr ⟨?_, hs⟩
      intro y hy
      have hxy : y.height_max ≤ x.height_max := by
        rcases List.mem_cons.mp hy with rfl | hyr
        · exact hc
        · rcases hh y hyr with h' | ⟨he, -⟩
          · exact le_trans (le_of_lt h') hc
          · exact he ▸ hc
      rcases lt_or_eq_of_le hxy with h' | h'
      · exact Or.inl h'
      · exact Or.inr ⟨h'.symm, hid y hy⟩
    · simp only [insertStable, decide_eq_true_eq, if_neg hc]
      refine List.pairwise_cons.mpr ⟨?_, ih hrest (fun y hy => hid y (List.mem_cons_of_mem _ hy))⟩
      intro y hy
      rcases List.mem_cons.mp
          ((insertStable_perm _ x rest).mem_iff.mp hy) with rfl | hyr
      · exact Or.inl (lt_of_not_le hc)
      · exact hh y hyr

/-- On a collection with ascending ids, the source's stable descending
`height_max` sort is sorted in the claim's total order. -/
theorem sortByHeightDesc_claim_pairwise :
    ∀ {l : List MapLayer}, l.Pairwise (fun a b => a.layer_id < b.layer_id) →
      (sortByHeightDesc l).Pairwise claimBefore := by
  intro l
  induction l with
  | nil => intro _; simp [sortByHeightDesc, sortStable]
  | cons x t ih =>
    intro hl
    rcases List.pairwise_cons.mp hl with ⟨hid, ht⟩
    have hmem : ∀ y ∈ sortStable
        (fun a b => decide (b.height_max ≤ a.height_max)) t, x.layer_id < y.layer_id :=
      fun y hy => hid y ((sortStable_perm _ t).mem_iff.mp hy)
    exact insertHeight_claim_pairwise x (ih ht) hmem

/-- Claim-order insertion on a claim-sorted list of layers with pairwise
distinct ids stays claim-sorted. -/
theorem insertClaim_claim_pairwise (x : MapLayer) :
    ∀ {s : List MapLayer}, s.Pairwise claimBefore →
      (∀ y ∈ s, x.layer_id ≠ y.layer_id) →
      (insertStable (fun a b => decide (claimBefore a b)) x s).Pairwise claimBefore := by
  intro s
  induction s with
  | nil => intro _ _; simp [insertStable]
  | cons h rest ih =>
    intro hs hid
    rcases List.pairwise_cons.mp hs with ⟨hh, hrest⟩
    by_cases hc : claimBefore x h
    · simp only [insertStable, decide_eq_true_eq, if_pos hc]
      refine List.pairwise_cons.mpr ⟨?_, hs⟩
      intro y hy
      rcases List.mem_cons.mp hy with rfl | hyr
      · exact hc
      · exact claimBefore_trans hc (hh y hyr)
    · simp only [insertStable, decide_eq_true_eq, if_neg hc]
      refine List.pairwise_cons.mpr
        ⟨?_, ih hrest (fun y hy => hid y (List.mem_cons_of_mem _ hy))⟩
      intro y hy
      rcases List.mem_cons.mp
          ((insertStable_perm _ x rest).mem_iff.mp hy) with rfl | hyr
      · rcases lt_trichotomy y.height_max h.height_max with h' | h' | h'
        · exact Or.inl h'
        · rcases lt_trichotomy h.layer_id y.layer_id with hi | hi | hi
          · exact Or.inr ⟨h'.symm, hi⟩
          · exact absurd hi.symm (hid h (List.mem_cons_self _ _))
          · exact absurd (Or.inr ⟨h', hi⟩) hc
        · exact absurd (Or.inl h') hc
      · exact hh y hyr

/-- On a collection with ascending ids, the claim-order sort is sorted in
the claim's total order. -/
theorem claimOrderSort_claim_pairwise :
    ∀ {l : List MapLayer}, l.Pairwise (fun a b => a.layer_id < b.layer_id) →
      (claimOrderSort l).Pairwise claimBefore := by
  intro l
  induction l with
  | nil => intro _; simp [claimOrderSort, sortStable]
  | cons x t ih =>
    intro hl
    rcases List.pairwise_cons.mp hl with ⟨hid, ht⟩
    have hmem : ∀ y ∈ sortStable (fun a b => decide (claimBefore a b)) t,
        x.layer_id ≠ y.layer_id :=
      fun y hy => ne_of_lt (hid y ((sortStable_perm _ t).mem_iff.mp hy))
    exact insertClaim_claim_pairwise x (ih ht) hmem

/-- Claim C5: on a map whose layer collection is in ascending `layer_id`
order (the invariant `MapConfig.add_layer` maintains by re-sorting after
every insert), layer resolution equals the claim's description — scan the
non-base layers ordered by `height_max` descending with ties broken by
`layer_id` ascending, return the first activated one, else the base layer,
else the first layer of the collection; the claim-order candidate list is
a permutation of the floor layers and is sorted by the claim's order. -/
theorem C5_get_active_layer (cfg : MapConfig) (player_pos : Position3D)
    (base_map_transform : Option CoordinateTransform)
    (hids : cfg.layers.Pairwise (fun a b => a.layer_id < b.layer_id)) :
    cfg.get_active_layer player_pos base_map_transform =
      resolveClaimC5 cfg player_pos base_map_transform ∧
    (claimOrderSort cfg.get_floor_maps).Perm cfg.get_floor_maps ∧
    (claimOrderSort cfg.get_floor_maps).Pairwise claimBefore := by
  have hfl : cfg.get_floor_maps.Pairwise (fun a b => a.layer_id < b.layer_id) :=
    List.Pairwise.sublist (List.filter_sublist _) hids
  have hsorts : sortByHeightDesc cfg.get_floor_maps = claimOrderSort cfg.get_floor_maps :=
    perm_pairwise_asymm_eq (fun _ _ => claimBefore_asymm)
      ((sortStable_perm _ _).trans (sortStable_perm _ _).symm)
      (sortByHeightDesc_claim_pairwise hfl)
      (claimOrderSort_claim_pairwise hfl)
  refine ⟨?_, sortStable_perm _ _, claimOrderSort_claim_pairwise hfl⟩
  rw [MapConfig.get_active_layer, resolveClaimC5, sortByHeightDesc, claimOrderSort] at *
  rw [hsorts]

/-- Witness for C5 at the concrete two-layer map `cfgW` (ids 0 < 1). -/
theorem C5_get_active_layer_witness :
    cfgW.get_active_layer ⟨0, 1, 0⟩ none = resolveClaimC5 cfgW ⟨0, 1, 0⟩ none :=
  (C5_get_active_layer cfgW ⟨0, 1, 0⟩ none (by decide)).1

/-- The inlier index set the RANSAC iteration on sample `s` scores. -/
def ransacCandidateInliers (points : List CalibrationPoint) (s : List ℕ) : List ℕ :=
  ransacInliers points
    (calculate_basic_transform (s.map (fun i => points.getD i defaultPoint)))

theorem ransacStep_eq (points : List CalibrationPoint) (st : RansacState) (s : List ℕ) :
    ransacStep points st s =
      if st.1 < (ransacCandidateInliers points s).length then
        ((ransacCandidateInliers points s).length, ransacCandidateInliers points s,
          some (calculate_basic_transform (s.map (fun i => points.getD i defaultPoint))))
      else st := rfl

/-- The best score never decreases along the RANSAC loop. -/
theorem ransacFold_mono (points : List CalibrationPoint) :
    ∀ (samples : List (List ℕ)) (st : RansacState),
      st.1 ≤ (samples.foldl (ransacStep points) st).1 := by
  intro samples
  induction samples with
  | nil => intro st; exact le_refl _
  | cons s t ih =>
    intro st
    refine le_trans ?_ (ih (ransacStep points st s))
    rw [ransacStep_eq]
    split
    · exact le_of_lt (by assumption)
    · exact le_refl _

/-- The final best score dominates the score of every iteration. -/
theorem ransacFold_ub (points : List CalibrationPoint) :
    ∀ (samples : List (List ℕ)) (st : RansacState), ∀ s ∈ samples,
      (ransacCandidateInliers points s).length ≤
        (samples.foldl (ransacStep points) st).1 := by
  intro samples
  induction samples with
  | nil => intro st s hs; exact absurd hs (List.not_mem_nil s)
  | cons s t ih =>
    intro st s' hs'
    rcases List.mem_cons.mp hs' with rfl | hmem
    · refine le_trans ?_ (ransacFold_mono points t (ransacStep points st s'))
      rw [ransacStep_eq]
      split
      · exact le_refl _
      · exact le_of_not_lt (by assumption)
    · exact ih (ransacStep points st s) s' hmem

/-- The loop state always records the length of its inlier list as score. -/
theorem ransacFold_len (points : List CalibrationPoint) :
    ∀ (samples : List (List ℕ)) (st : RansacState), st.1 = st.2.1.length →
      (samples.foldl (ransacStep points) st).1 =
        (samples.foldl (ransacStep points) st).2.1.length := by
  intro samples
  induction samples with
  | nil => intro st h; exact h
  | cons s t ih =>
    intro st h
    refine ih (ransacStep points st s) ?_
    rw [ransacStep_eq]
    split
    · rfl
    · exact h

/-- The final best inlier set is either the untouched initial state or the
inlier set of one of the iterations. -/
theorem ransacFold_achieved (points : List CalibrationPoint) :
    ∀ (samples : List (List ℕ)) (st : RansacState),
      samples.foldl (ransacStep points) st = st ∨
      ∃ s ∈ samples, (samples.foldl (ransacStep points) st).2.1 =
        ransacCandidateInliers points s := by
  intro samples
  induction samples with
  | nil => intro st; exact Or.inl rfl
  | cons s t ih =>
    intro st
    rcases ih (ransacStep points st s) with heq | ⟨s', hmem, hval⟩
    · rw [List.foldl_cons, heq, ransacStep_eq]
      split
      · exact Or.inr ⟨s, List.mem_cons_self _ _, rfl⟩
      · exact Or.inl rfl
    · exact Or.inr ⟨s', List.mem_cons_of_mem _ hmem, hval⟩

/-- Claim C6: with more than 6 points, RANSAC runs one basic fit per random
draw over its fixed 500-iteration budget, scores each by the number of
points whose squared reprojection error is below 10², keeps the first
iteration achieving the maximal inlier count, refits over that iteration's
inliers (basic fit for at most 6 inliers, weighted fit for more), and falls
back to a weighted fit over the full point set when no iteration reaches 3
inliers.  The ambient `random.sample(range(n), 3)` draws are modelled by
the universally quantified list of 3-element, duplicate-free, in-range
index samples. -/
theorem C6_ransac_shape (wf : ℚ → ℚ) (points : List CalibrationPoint)
    (samples : List (List ℕ)) (_h6 : 6 < points.length)
    (_hlen : samples.length = ransacMaxIterations)
    (_hvalid : ∀ s ∈ samples, s.length = 3 ∧ s.Nodup ∧ ∀ i ∈ s, i < points.length) :
    (∀ s ∈ samples, (ransacCandidateInliers points s).length ≤
      (samples.foldl (ransacStep points) (0, [], none)).1) ∧
    ((samples.foldl (ransacStep points) (0, [], none)).1 =
      (samples.foldl (ransacStep points) (0, [], none)).2.1.length) ∧
    ((samples.foldl (ransacStep points) (0, [], none)).2.1 ≠ [] →
      ∃ s ∈ samples, (samples.foldl (ransacStep points) (0, [], none)).2.1 =
        ransacCandidateInliers points s) ∧
    (calculate_ransac_transform wf samples points =
      if 3 ≤ (samples.foldl (ransacStep points) (0, [], none)).2.1.length then
        (if (samples.foldl (ransacStep points) (0, [], none)).2.1.length ≤ 6 then
          .ok (calculate_basic_transform
            ((samples.foldl (ransacStep points) (0, [], none)).2.1.map
              (fun i => points.getD i defaultPoint)))
        else calculate_weighted_transform wf
          ((samples.foldl (ransacStep points) (0, [], none)).2.1.map
            (fun i => points.getD i defaultPoint)))
      else calculate_weighted_transform wf points) := by
  refine ⟨fun s hs => ransacFold_ub points samples _ s hs,
    ransacFold_len points samples _ rfl, ?_, ?_⟩
  · intro hne
    rcases ransacFold_achieved points samples (0, [], none) with heq | hex
    · exact absurd (congrArg (fun st : RansacState => st.2.1) heq) hne
    · exact hex
  · rw [calculate_ransac_transform]
    have hmaplen : ∀ l : List ℕ, (l.map (fun i => points.getD i defaultPoint)).length
        = l.length := fun l => List.length_map l _
    by_cases h3 : 3 ≤ (samples.foldl (ransacStep points) (0, [], none)).2.1.length
    · have hne : (samples.foldl (ransacStep points) (0, [], none)).2.1 ≠ [] := by
        intro hnil
        rw [hnil] at h3
        simp at h3
      rw [if_pos ⟨hne, h3⟩]
      simp only [hmaplen]
      rw [if_pos h3]
    · have : ¬((samples.foldl (ransacStep points) (0, [], none)).2.1 ≠ [] ∧
          3 ≤ (samples.foldl (ransacStep points) (0, [], none)).2.1.length) :=
        fun h => h3 h.2
      rw [if_neg this, if_neg h3]

/-- Seven calibration points for the C6 witness. -/
def c6Points : List CalibrationPoint :=
  [⟨⟨0, 0, 0⟩, 0, 0⟩, ⟨⟨1, 0, 0⟩, 2, 0⟩, ⟨⟨0, 0, 1⟩, 0, 2⟩, ⟨⟨1, 0, 1⟩, 2, 2⟩,
   ⟨⟨2, 0, 0⟩, 4, 0⟩, ⟨⟨0, 0, 2⟩, 0, 4⟩, ⟨⟨2, 0, 2⟩, 4, 4⟩]

/-- Exactly 500 draws of the sample (0, 1, 2), matching the fixed
iteration budget. -/
def c6Samples : List (List ℕ) := List.replicate ransacMaxIterations [0, 1, 2]

/-- Witness for C6: the loop invariant instantiated on the concrete 7-point
set with a full 500-draw schedule. -/
theorem C6_ransac_shape_witness :
    (c6Samples.foldl (ransacStep c6Points) (0, [], none)).1 =
      (c6Samples.foldl (ransacStep c6Points) (0, [], none)).2.1.length :=
  (C6_ransac_shape id c6Points c6Samples (by decide)
    (List.length_replicate _ _)
    (by
      intro s hs
      rw [List.eq_of_mem_replicate hs]
      refine ⟨rfl, by decide, ?_⟩
      intro i hi
      fin_cases hi <;> decide)).2.1

/-- The crossing abscissa the loop computes for an edge (meaningful when
the edge is not horizontal). -/
def xinters (map_y : ℚ) (e : (ℚ × ℚ) × (ℚ × ℚ)) : ℚ :=
  (map_y - e.1.2) * (e.2.1 - e.1.1) / (e.2.2 - e.1.2) + e.1.1

/-- Whether one loop iteration flips the `inside` bit: the edge spans the
query height (strictly below the lower filter, non-strictly above), the
query is not right of the edge's x-extent, and the edge is vertical or the
crossing abscissa is right of the query. -/
def edgeToggle (map_x map_y : ℚ) (e : (ℚ × ℚ) × (ℚ × ℚ)) : Prop :=
  (min e.1.2 e.2.2 < map_y ∧ map_y ≤ max e.1.2 e.2.2) ∧
    (map_x ≤ max e.1.1 e.2.1 ∧ (e.1.1 = e.2.1 ∨ map_x ≤ xinters map_y e))

instance (map_x map_y : ℚ) (e : (ℚ × ℚ) × (ℚ × ℚ)) :
    Decidable (edgeToggle map_x map_y e) := by
  unfold edgeToggle
  infer_instance

/-- One loop step XORs the `inside` bit with the toggle of its edge. -/
theorem rayStepB_fst (mx my : ℚ) (st : Bool × Option ℚ) (e : (ℚ × ℚ) × (ℚ × ℚ)) :
    (rayStepB mx my st e).1 = (st.1 ^^ decide (edgeToggle mx my e)) := by
  obtain ⟨⟨p1x, p1y⟩, p2x, p2y⟩ := e
  obtain ⟨inside, xi0⟩ := st
  by_cases h1 : min p1y p2y < my
  · by_cases h2 : my ≤ max p1y p2y
    · by_cases h3 : mx ≤ max p1x p2x
      · have hy : p1y ≠ p2y := by
          intro hEq
          rw [hEq, min_self] at h1
          rw [hEq, max_self] at h2
          linarith
        by_cases hx : p1x = p2x
        · have ht : edgeToggle mx my ((p1x, p1y), (p2x, p2y)) :=
            ⟨⟨h1, h2⟩, h3, Or.inl hx⟩
          simp only [rayStepB]
          rw [if_pos h1, if_pos h2, if_pos h3, if_pos hy, if_pos hx]
          simp [ht]
        · by_cases hv : mx ≤ xinters my ((p1x, p1y), (p2x, p2y))
          · have ht : edgeToggle mx my ((p1x, p1y), (p2x, p2y)) :=
              ⟨⟨h1, h2⟩, h3, Or.inr hv⟩
            simp only [rayStepB]
            rw [if_pos h1, if_pos h2, if_pos h3, if_pos hy, if_neg hx]
            have hv' : mx ≤ (my - p1y) * (p2x - p1x) / (p2y - p1y) + p1x := hv
            simp [hv', ht]
          · have ht : ¬edgeToggle mx my ((p1x, p1y), (p2x, p2y)) := by
              rintro ⟨-, -, heq | hvv⟩
              · exact hx heq
              · exact hv hvv
            simp only [rayStepB]
            rw [if_pos h1, if_pos h2, if_pos h3, if_pos hy, if_neg hx]
            have hv' : ¬mx ≤ (my - p1y) * (p2x - p1x) / (p2y - p1y) + p1x := hv
            simp [hv', ht]
      · have ht : ¬edgeToggle mx my ((p1x, p1y), (p2x, p2y)) := fun h => h3 h.2.1
        simp only [rayStepB]
        rw [if_pos h1, if_pos h2, if_neg h3]
        simp [ht]
    · have ht : ¬edgeToggle mx my ((p1x, p1y), (p2x, p2y)) := fun h => h2 h.1.2
      simp only [rayStepB]
      rw [if_pos h1, if_neg h2]
      simp [ht]
  · have ht : ¬edgeToggle mx my ((p1x, p1y), (p2x, p2y)) := fun h => h1 h.1.1
    simp only [rayStepB]
    rw [if_neg h1]
    simp [ht]

/-- The loop's `inside` bit is the XOR of the edge toggles. -/
theorem foldl_rayStepB_fst (mx my : ℚ) :
    ∀ (edges : List ((ℚ × ℚ) × (ℚ × ℚ))) (st : Bool × Option ℚ),
      (edges.foldl (rayStepB mx my) st).1 =
        edges.foldl (fun b e => b ^^ decide (edgeToggle mx my e)) st.1 := by
  intro edges
  induction edges with
  | nil => intro st; rfl
  | cons e t ih =>
    intro st
    rw [List.foldl_cons, List.foldl_cons, ih, rayStepB_fst]

/-- `contains_point` on a region with at least 3 points is the XOR of the
edge toggles. -/
theorem contains_point_eq_toggles (r : Region) (mx my : ℚ)
    (h : ¬r.points.length < 3) :
    r.contains_point mx my =
      r.edges.foldl (fun b e => b ^^ decide (edgeToggle mx my e)) false := by
  have hE : r.containsPointE mx my =
      .ok (r.edges.foldl (fun b e => b ^^ decide (edgeToggle mx my e)) false) := by
    rw [Region.containsPointE, if_neg h, foldlM_rayStep]
    show Except.ok (r.edges.foldl (rayStepB mx my) (false, none)).1 = _
    rw [foldl_rayStepB_fst]
  rw [Region.contains_point, hE]

/-- `contains_point` on a region with fewer than 3 points is false. -/
theorem contains_point_short (r : Region) (mx my : ℚ) (h : r.points.length < 3) :
    r.contains_point mx my = false := by
  rw [Region.contains_point, Region.containsPointE, if_pos h]

/-- Folding an XOR of everywhere-false toggles changes nothing. -/
theorem foldl_xor_false {E : Type} (f : E → Bool) :
    ∀ (l : List E) (b : Bool), (∀ e ∈ l, f e = false) →
      l.foldl (fun b e => b ^^ f e) b = b := by
  intro l
  induction l with
  | nil => intro b _; rfl
  | cons e t ih =>
    intro b h
    rw [List.foldl_cons, h e (List.mem_cons_self _ _), Bool.xor_false]
    exact ih b (fun x hx => h x (List.mem_cons_of_mem _ hx))

/-- Replacing the toggle function by a pointwise-equal one leaves the XOR
fold unchanged. -/
theorem foldl_xor_congr {E : Type} (f g : E → Bool) :
    ∀ (l : List E) (b : Bool), (∀ e ∈ l, f e = g e) →
      l.foldl (fun b e => b ^^ f e) b = l.foldl (fun b e => b ^^ g e) b := by
  intro l
  induction l with
  | nil => intro b _; rfl
  | cons e t ih =>
    intro b h
    rw [List.foldl_cons, List.foldl_cons, h e (List.mem_cons_self _ _)]
    exact ih _ (fun x hx => h x (List.mem_cons_of_mem _ hx))

/-- XOR of a vertex function over the consecutive pairs of a closed chain
telescopes to first-XOR-last. -/
theorem chainXor {α : Type} (g : α → Bool) :
    ∀ (l : List α) (a c : α) (b : Bool),
      ((a :: l).zip (l ++ [c])).foldl (fun b e => b ^^ (g e.1 ^^ g e.2)) b =
        (b ^^ (g a ^^ g c)) := by
  intro l
  induction l with
  | nil =>
    intro a c b
    show (b ^^ (g a ^^ g c)) = (b ^^ (g a ^^ g c))
    rfl
  | cons x xs ih =>
    intro a c b
    show ((a, x) :: ((x :: xs).zip (xs ++ [c]))).foldl
      (fun b e => b ^^ (g e.1 ^^ g e.2)) b = (b ^^ (g a ^^ g c))
    rw [List.foldl_cons, ih x c]
    cases g a <;> cases g x <;> cases g c <;> cases b <;> rfl

/-- Both endpoints of every walked edge are vertices of the region. -/
theorem edges_mem (r : Region) : ∀ e ∈ r.edges, e.1 ∈ r.points ∧ e.2 ∈ r.points := by
  intro e he
  obtain ⟨e1, e2⟩ := e
  rcases hp : r.points with _ | ⟨a, rest⟩
  · rw [Region.edges, hp] at he
    exact absurd he (List.not_mem_nil _)
  · rw [Region.edges, hp] at he
    have hz := List.of_mem_zip (show (e1, e2) ∈ (a :: rest).zip (rest ++ [a]) from he)
    refine ⟨hz.1, ?_⟩
    rcases List.mem_append.mp hz.2 with h | h
    · exact List.mem_cons_of_mem _ h
    · rw [List.mem_singleton.mp h]
      exact List.mem_cons_self _ _

/-- An edge spans the query height exactly when its endpoints lie on
opposite sides of the half-open level set. -/
theorem span_decide (my a b : ℚ) :
    decide (min a b < my ∧ my ≤ max a b) = (decide (my ≤ a) ^^ decide (my ≤ b)) := by
  by_cases h1 : my ≤ a <;> by_cases h2 : my ≤ b
  · have hs : ¬(min a b < my ∧ my ≤ max a b) := by
      rintro ⟨hc, -⟩
      rcases min_lt_iff.mp hc with h | h <;> linarith
    simp [h1, h2, hs]
  · have hs : min a b < my ∧ my ≤ max a b :=
      ⟨min_lt_iff.mpr (Or.inr (not_le.mp h2)), le_max_iff.mpr (Or.inl h1)⟩
    simp [h1, h2, hs]
  · have hs : min a b < my ∧ my ≤ max a b :=
      ⟨min_lt_iff.mpr (Or.inl (not_le.mp h1)), le_max_iff.mpr (Or.inr h2)⟩
    simp [h1, h2, hs]
  · have hs : ¬(min a b < my ∧ my ≤ max a b) := by
      rintro ⟨-, hc⟩
      rcases le_max_iff.mp hc with h | h <;> linarith
    simp [h1, h2, hs]

/-- For a spanning edge the crossing abscissa is at least the left end of
the edge's x-extent. -/
theorem xinters_ge_min {my : ℚ} {e : (ℚ × ℚ) × (ℚ × ℚ)}
    (h1 : min e.1.2 e.2.2 < my) (h2 : my ≤ max e.1.2 e.2.2) (hne : e.1.2 ≠ e.2.2) :
    min e.1.1 e.2.1 ≤ xinters my e := by
  obtain ⟨⟨p1x, p1y⟩, p2x, p2y⟩ := e
  simp only at h1 h2 hne
  unfold xinters
  simp only
  rcases lt_or_gt_of_ne hne with hd | hd
  · have hd' : (0 : ℚ) < p2y - p1y := by linarith
    have hmy1 : p1y < my := by
      rcases min_lt_iff.mp h1 with h | h <;> linarith
    have hmy2 : my ≤ p2y := by
      rcases le_max_iff.mp h2 with h | h <;> linarith
    rw [div_add' _ _ _ (ne_of_gt hd'), le_div_iff hd']
    rcases le_total p1x p2x with hx | hx
    · rw [min_eq_left hx]
      nlinarith [mul_nonneg (sub_nonneg.mpr (le_of_lt hmy1)) (sub_nonneg.mpr hx)]
    · rw [min_eq_right hx]
      nlinarith [mul_nonneg (sub_nonneg.mpr hx) (sub_nonneg.mpr hmy2)]
  · have hd' : p2y - p1y < 0 := by linarith
    have hmy1 : p2y < my := by
      rcases min_lt_iff.mp h1 with h | h <;> linarith
    have hmy2 : my ≤ p1y := by
      rcases le_max_iff.mp h2 with h | h <;> linarith
    rw [div_add' _ _ _ (ne_of_lt hd'), le_div_iff_of_neg hd']
    rcases le_total p1x p2x with hx | hx
    · rw [min_eq_left hx]
      nlinarith [mul_nonneg (sub_nonneg.mpr hmy2) (sub_nonneg.mpr hx)]
    · rw [min_eq_right hx]
      nlinarith [mul_nonneg (sub_nonneg.mpr hx) (sub_nonneg.mpr (le_of_lt hmy1))]

/-- For a spanning edge the crossing abscissa is at most the right end of
the edge's x-extent. -/
theorem xinters_le_max {my : ℚ} {e : (ℚ × ℚ) × (ℚ × ℚ)}
    (h1 : min e.1.2 e.2.2 < my) (h2 : my ≤ max e.1.2 e.2.2) (hne : e.1.2 ≠ e.2.2) :
    xinters my e ≤ max e.1.1 e.2.1 := by
  obtain ⟨⟨p1x, p1y⟩, p2x, p2y⟩ := e
  simp only at h1 h2 hne
  unfold xinters
  simp only
  rcases lt_or_gt_of_ne hne with hd | hd
  · have hd' : (0 : ℚ) < p2y - p1y := by linarith
    have hmy1 : p1y < my := by
      rcases min_lt_iff.mp h1 with h | h <;> linarith
    have hmy2 : my ≤ p2y := by
      rcases le_max_iff.mp h2 with h | h <;> linarith
    rw [div_add' _ _ _ (ne_of_gt hd'), div_le_iff hd']
    rcases le_total p1x p2x with hx | hx
    · rw [max_eq_right hx]
      nlinarith [mul_nonneg (sub_nonneg.mpr hmy2) (sub_nonneg.mpr hx)]
    · rw [max_eq_left hx]
      nlinarith [mul_nonneg (sub_nonneg.mpr (le_of_lt hmy1)) (sub_nonneg.mpr hx)]
  · have hd' : p2y - p1y < 0 := by linarith
    have hmy1 : p2y < my := by
      rcases min_lt_iff.mp h1 with h | h <;> linarith
    have hmy2 : my ≤ p1y := by
      rcases le_max_iff.mp h2 with h | h <;> linarith
    rw [div_add' _ _ _ (ne_of_lt hd'), div_le_iff_of_neg hd']
    rcases le_total p1x p2x with hx | hx
    · rw [max_eq_right hx]
      nlinarith [mul_nonneg (sub_nonneg.mpr (le_of_lt hmy1)) (sub_nonneg.mpr hx)]
    · rw [max_eq_left hx]
      nlinarith [mul_nonneg (sub_nonneg.mpr hmy2) (sub_nonneg.mpr hx)]

/-- On a spanning edge the toggle condition collapses to the comparison of
the query abscissa with the crossing abscissa. -/
theorem edgeToggle_iff_of_span {mx my : ℚ} {e : (ℚ × ℚ) × (ℚ × ℚ)}
    (h1 : min e.1.2 e.2.2 < my) (h2 : my ≤ max e.1.2 e.2.2) :
    (edgeToggle mx my e ↔ mx ≤ xinters my e) := by
  have hne : e.1.2 ≠ e.2.2 := by
    intro hEq
    rw [hEq, min_self] at h1
    rw [hEq, max_self] at h2
    linarith
  constructor
  · rintro ⟨-, hmax, heq | hv⟩
    · obtain ⟨⟨p1x, p1y⟩, p2x, p2y⟩ := e
      simp only at heq hmax
      subst heq
      unfold xinters
      simp only
      rw [sub_self, mul_zero, zero_div, zero_add]
      rw [max_self] at hmax
      exact hmax
    · exact hv
  · intro hv
    exact ⟨⟨h1, h2⟩, le_trans hv (xinters_le_max h1 h2 hne), Or.inr hv⟩

/-- An edge that does not span the query height never toggles. -/
theorem edgeToggle_not_span {mx my : ℚ} {e : (ℚ × ℚ) × (ℚ × ℚ)}
    (h : ¬(min e.1.2 e.2.2 < my ∧ my ≤ max e.1.2 e.2.2)) :
    ¬edgeToggle mx my e :=
  fun ht => h ht.1

/-- A query outside the region's bounding box (in any of the four
directions, strictly) is never contained. -/
theorem contains_point_outside (r : Region) (mx my : ℚ)
    (h : (∀ p ∈ r.points, p.1 < mx) ∨ (∀ p ∈ r.points, mx < p.1) ∨
         (∀ p ∈ r.points, p.2 < my) ∨ (∀ p ∈ r.points, my < p.2)) :
    r.contains_point mx my = false := by
  by_cases hlen : r.points.length < 3
  · exact contains_point_short r mx my hlen
  · rw [contains_point_eq_toggles r mx my hlen]
    rcases h with h | h | h | h
    · apply foldl_xor_false
      intro e he
      rcases edges_mem r e he with ⟨hm1, hm2⟩
      apply decide_eq_false
      rintro ⟨-, hmax, -⟩
      rcases le_max_iff.mp hmax with hx | hx
      · exact absurd hx (not_le.mpr (h _ hm1))
      · exact absurd hx (not_le.mpr (h _ hm2))
    · have hcongr : ∀ e ∈ r.edges, decide (edgeToggle mx my e) =
          ((fun p : ℚ × ℚ => decide (my ≤ p.2)) e.1 ^^
            (fun p : ℚ × ℚ => decide (my ≤ p.2)) e.2) := by
        intro e he
        rcases edges_mem r e he with ⟨hm1, hm2⟩
        simp only
        rw [← span_decide]
        by_cases hs : min e.1.2 e.2.2 < my ∧ my ≤ max e.1.2 e.2.2
        · have hne : e.1.2 ≠ e.2.2 := by
            intro hEq
            rw [hEq, min_self, max_self] at hs
            linarith [hs.1, hs.2]
          have hminx : mx < min e.1.1 e.2.1 := lt_min_iff.mpr ⟨h _ hm1, h _ hm2⟩
          have htog : edgeToggle mx my e := (edgeToggle_iff_of_span hs.1 hs.2).mpr
            (le_trans (le_of_lt hminx) (xinters_ge_min hs.1 hs.2 hne))
          rw [decide_eq_true htog, decide_eq_true hs]
        · rw [decide_eq_false (edgeToggle_not_span hs), decide_eq_false hs]
      rw [foldl_xor_congr _ _ _ _ hcongr]
      rcases hp : r.points with _ | ⟨a, rest⟩
      · rw [hp] at hlen
        simp at hlen
      · have hed : r.edges = (a :: rest).zip (rest ++ [a]) := by
          rw [Region.edges, hp]
        rw [hed]
        exact (chainXor (fun p : ℚ × ℚ => decide (my ≤ p.2)) rest a a false).trans
          (by simp)
    · apply foldl_xor_false
      intro e he
      rcases edges_mem r e he with ⟨hm1, hm2⟩
      apply decide_eq_false
      rintro ⟨⟨-, hmax⟩, -⟩
      rcases le_max_iff.mp hmax with hx | hx
      · exact absurd hx (not_le.mpr (h _ hm1))
      · exact absurd hx (not_le.mpr (h _ hm2))
    · apply foldl_xor_false
      intro e he
      rcases edges_mem r e he with ⟨hm1, hm2⟩
      apply decide_eq_false
      rintro ⟨⟨hmin, -⟩, -⟩
      rcases min_lt_iff.mp hmin with hx | hx
      · exact absurd hx (not_lt.mpr (le_of_lt (h _ hm1)))
      · exact absurd hx (not_lt.mpr (le_of_lt (h _ hm2)))

/-- The centroid-to-crossing identity: on the edge (P, Q) of the triangle
(P, Q, Z), the signed horizontal distance from the centroid to the edge's
crossing at the centroid height, scaled by the edge's vertical extent, is
one third of the triangle's doubled signed area. -/
theorem crossing_identity (P Q Z : ℚ × ℚ) (hne : P.2 ≠ Q.2) :
    (xinters ((P.2 + Q.2 + Z.2) / 3) (P, Q) - (P.1 + Q.1 + Z.1) / 3) * (Q.2 - P.2) =
      ((Q.1 - P.1) * (Z.2 - P.2) - (Q.2 - P.2) * (Z.1 - P.1)) / 3 := by
  have h : Q.2 - P.2 ≠ 0 := sub_ne_zero.mpr (Ne.symm hne)
  unfold xinters
  simp only
  field_simp
  ring

/-- Toggle criterion for an upward spanning edge (P strictly below the
centroid height, Q at or above it): the edge toggles exactly when the
triangle (P, Q, Z) has nonnegative doubled signed area. -/
theorem centroid_toggle_up (P Q Z : ℚ × ℚ) (gx gy : ℚ)
    (hgx : gx = (P.1 + Q.1 + Z.1) / 3) (hgy : gy = (P.2 + Q.2 + Z.2) / 3)
    (hP : P.2 < gy) (hQ : gy ≤ Q.2) :
    (edgeToggle gx gy (P, Q) ↔
      0 ≤ (Q.1 - P.1) * (Z.2 - P.2) - (Q.2 - P.2) * (Z.1 - P.1)) := by
  have hd : 0 < Q.2 - P.2 := by linarith
  have hne : P.2 ≠ Q.2 := by intro h; rw [h] at hP; linarith
  have h1 : min (P, Q).1.2 (P, Q).2.2 < gy := min_lt_iff.mpr (Or.inl hP)
  have h2 : gy ≤ max (P, Q).1.2 (P, Q).2.2 := le_max_iff.mpr (Or.inr hQ)
  rw [edgeToggle_iff_of_span h1 h2]
  subst hgx hgy
  have hid := crossing_identity P Q Z hne
  constructor
  · intro hle
    nlinarith [hid, mul_nonneg (sub_nonneg.mpr hle) (le_of_lt hd)]
  · intro hcr0
    by_contra hlt
    push_neg at hlt
    nlinarith [hid]

/-- Toggle criterion for a downward spanning edge (Q strictly below the
centroid height, P at or above it): the edge toggles exactly when the
triangle (P, Q, Z) has nonpositive doubled signed area. -/
theorem centroid_toggle_down (P Q Z : ℚ × ℚ) (gx gy : ℚ)
    (hgx : gx = (P.1 + Q.1 + Z.1) / 3) (hgy : gy = (P.2 + Q.2 + Z.2) / 3)
    (hQ : Q.2 < gy) (hP : gy ≤ P.2) :
    (edgeToggle gx gy (P, Q) ↔
      (Q.1 - P.1) * (Z.2 - P.2) - (Q.2 - P.2) * (Z.1 - P.1) ≤ 0) := by
  have hd : Q.2 - P.2 < 0 := by linarith
  have hne : P.2 ≠ Q.2 := by intro h; rw [h] at hP; linarith
  have h1 : min (P, Q).1.2 (P, Q).2.2 < gy := min_lt_iff.mpr (Or.inr hQ)
  have h2 : gy ≤ max (P, Q).1.2 (P, Q).2.2 := le_max_iff.mpr (Or.inl hP)
  rw [edgeToggle_iff_of_span h1 h2]
  subst hgx hgy
  have hid := crossing_identity P Q Z hne
  constructor
  · intro hle
    nlinarith [hid, mul_nonpos_of_nonneg_of_nonpos (sub_nonneg.mpr hle) (le_of_lt hd)]
  · intro hcr0
    by_contra hlt
    push_neg at hlt
    nlinarith [hid]

/-- The centroid of every nondegenerate triangle region (doubled signed
area nonzero) is contained: exactly one of the triangle's two
centroid-height-spanning edges crosses at or right of the centroid. -/
theorem contains_centroid (A B C : ℚ × ℚ)
    (hcr : (B.1 - A.1) * (C.2 - A.2) - (B.2 - A.2) * (C.1 - A.1) ≠ 0) :
    (Region.mk [A, B, C]).contains_point ((A.1 + B.1 + C.1) / 3)
      ((A.2 + B.2 + C.2) / 3) = true := by
  set gx := (A.1 + B.1 + C.1) / 3 with hgx
  set gy := (A.2 + B.2 + C.2) / 3 with hgy
  have hlen : ¬(Region.mk [A, B, C]).points.length < 3 := by simp
  rw [contains_point_eq_toggles _ _ _ hlen]
  have hedges : (Region.mk [A, B, C]).edges = [(A, B), (B, C), (C, A)] := rfl
  rw [hedges]
  simp only [List.foldl_cons, List.foldl_nil, Bool.false_xor]
  have hsum : A.2 + B.2 + C.2 = 3 * gy := by rw [hgy]; ring
  have hBCA : (C.1 - B.1) * (A.2 - B.2) - (C.2 - B.2) * (A.1 - B.1) =
      (B.1 - A.1) * (C.2 - A.2) - (B.2 - A.2) * (C.1 - A.1) := by ring
  have hCAB : (A.1 - C.1) * (B.2 - C.2) - (A.2 - C.2) * (B.1 - C.1) =
      (B.1 - A.1) * (C.2 - A.2) - (B.2 - A.2) * (C.1 - A.1) := by ring
  by_cases hA : gy ≤ A.2 <;> by_cases hB : gy ≤ B.2 <;> by_cases hC : gy ≤ C.2
  · -- T T T: all at or above the average height forces a flat triangle
    exfalso
    have hA2 : A.2 = gy := by linarith
    have hB2 : B.2 = A.2 := by linarith
    have hC2 : C.2 = A.2 := by linarith
    apply hcr
    rw [hB2, hC2]
    ring
  · -- T T F
    have h1 : ¬edgeToggle gx gy (A, B) := by
      apply edgeToggle_not_span
      rintro ⟨hmin, -⟩
      rcases min_lt_iff.mp hmin with hlt | hlt <;> simp only at hlt <;> linarith
    have h2 := centroid_toggle_down B C A gx gy (by rw [hgx]; ring) (by rw [hgy]; ring)
      (not_le.mp hC) hB
    have h3 := centroid_toggle_up C A B gx gy (by rw [hgx]; ring) (by rw [hgy]; ring)
      (not_le.mp hC) hA
    rw [hBCA] at h2
    rw [hCAB] at h3
    rcases lt_or_gt_of_ne hcr with hneg | hpos
    · have ht2 : edgeToggle gx gy (B, C) := h2.mpr (le_of_lt hneg)
      have ht3 : ¬edgeToggle gx gy (C, A) := fun ht => absurd (h3.mp ht) (not_le.mpr hneg)
      simp [h1, ht2, ht3]
    · have ht2 : ¬edgeToggle gx gy (B, C) := fun ht => absurd (h2.mp ht) (not_le.mpr hpos)
      have ht3 : edgeToggle gx gy (C, A) := h3.mpr (le_of_lt hpos)
      simp [h1, ht2, ht3]
  · -- T F T
    have h1 := centroid_toggle_down A B C gx gy (by rw [hgx]) (by rw [hgy])
      (not_le.mp hB) hA
    have h2 := centroid_toggle_up B C A gx gy (by rw [hgx]; ring) (by rw [hgy]; ring)
      (not_le.mp hB) hC
    have h3 : ¬edgeToggle gx gy (C, A) := by
      apply edgeToggle_not_span
      rintro ⟨hmin, -⟩
      rcases min_lt_iff.mp hmin with hlt | hlt <;> simp only at hlt <;> linarith
    rw [hBCA] at h2
    rcases lt_or_gt_of_ne hcr with hneg | hpos
    · have ht1 : edgeToggle gx gy (A, B) := h1.mpr (le_of_lt hneg)
      have ht2 : ¬edgeToggle gx gy (B, C) := fun ht => absurd (h2.mp ht) (not_le.mpr hneg)
      simp [ht1, ht2, h3]
    · have ht1 : ¬edgeToggle gx gy (A, B) := fun ht => absurd (h1.mp ht) (not_le.mpr hpos)
      have ht2 : edgeToggle gx gy (B, C) := h2.mpr (le_of_lt hpos)
      simp [ht1, ht2, h3]
  · -- T F F
    have h1 := centroid_toggle_down A B C gx gy (by rw [hgx]) (by rw [hgy])
      (not_le.mp hB) hA
    have h2 : ¬edgeToggle gx gy (B, C) := by
      apply edgeToggle_not_span
      rintro ⟨-, hmax⟩
      rcases le_max_iff.mp hmax with hlt | hlt <;> simp only at hlt <;> linarith
    have h3 := centroid_toggle_up C A B gx gy (by rw [hgx]; ring) (by rw [hgy]; ring)
      (not_le.mp hC) hA
    rw [hCAB] at h3
    rcases lt_or_gt_of_ne hcr with hneg | hpos
    · have ht1 : edgeToggle gx gy (A, B) := h1.mpr (le_of_lt hneg)
      have ht3 : ¬edgeToggle gx gy (C, A) := fun ht => absurd (h3.mp ht) (not_le.mpr hneg)
      simp [ht1, h2, ht3]
    · have ht1 : ¬edgeToggle gx gy (A, B) := fun ht => absurd (h1.mp ht) (not_le.mpr hpos)
      have ht3 : edgeToggle gx gy (C, A) := h3.mpr (le_of_lt hpos)
      simp [ht1, h2, ht3]
  · -- F T T
    have h1 := centroid_toggle_up A B C gx gy (by rw [hgx]) (by rw [hgy])
      (not_le.mp hA) hB
    have h2 : ¬edgeToggle gx gy (B, C) := by
      apply edgeToggle_not_span
      rintro ⟨hmin, -⟩
      rcases min_lt_iff.mp hmin with hlt | hlt <;> simp only at hlt <;> linarith
    have h3 := centroid_toggle_down C A B gx gy (by rw [hgx]; ring) (by rw [hgy]; ring)
      (not_le.mp hA) hC
    rw [hCAB] at h3
    rcases lt_or_gt_of_ne hcr with hneg | hpos
    · have ht1 : ¬edgeToggle gx gy (A, B) := fun ht => absurd (h1.mp ht) (not_le.mpr hneg)
      have ht3 : edgeToggle gx gy (C, A) := h3.mpr (le_of_lt hneg)
      simp [ht1, h2, ht3]
    · have ht1 : edgeToggle gx gy (A, B) := h1.mpr (le_of_lt hpos)
      have ht3 : ¬edgeToggle gx gy (C, A) := fun ht => absurd (h3.mp ht) (not_le.mpr hpos)
      simp [ht1, h2, ht3]
  · -- F T F
    have h1 := centroid_toggle_up A B C gx gy (by rw [hgx]) (by rw [hgy])
      (not_le.mp hA) hB
    have h2 := centroid_toggle_down B C A gx gy (by rw [hgx]; ring) (by rw [hgy]; ring)
      (not_le.mp hC) hB
    have h3 : ¬edgeToggle gx gy (C, A) := by
      apply edgeToggle_not_span
      rintro ⟨-, hmax⟩
      rcases le_max_iff.mp hmax with hlt | hlt <;> simp only at hlt <;> linarith
    rw [hBCA] at h2
    rcases lt_or_gt_of_ne hcr with hneg | hpos
    · have ht1 : ¬edgeToggle gx gy (A, B) := fun ht => absurd (h1.mp ht) (not_le.mpr hneg)
      have ht2 : edgeToggle gx gy (B, C) := h2.mpr (le_of_lt hneg)
      simp [ht1, ht2, h3]
    · have ht1 : edgeToggle gx gy (A, B) := h1.mpr (le_of_lt hpos)
      have ht2 : ¬edgeToggle gx gy (B, C) := fun ht => absurd (h2.mp ht) (not_le.mpr hpos)
      simp [ht1, ht2, h3]
  · -- F F T
    have h1 : ¬edgeToggle gx gy (A, B) := by
      apply edgeToggle_not_span
      rintro ⟨-, hmax⟩
      rcases le_max_iff.mp hmax with hlt | hlt <;> simp only at hlt <;> linarith
    have h2 := centroid_toggle_up B C A gx gy (by rw [hgx]; ring) (by rw [hgy]; ring)
      (not_le.mp hB) hC
    have h3 := centroid_toggle_down C A B gx gy (by rw [hgx]; ring) (by rw [hgy]; ring)
      (not_le.mp hA) hC
    rw [hBCA] at h2
    rw [hCAB] at h3
    rcases lt_or_gt_of_ne hcr with hneg | hpos
    · have ht2 : ¬edgeToggle gx gy (B, C) := fun ht => absurd (h2.mp ht) (not_le.mpr hneg)
      have ht3 : edgeToggle gx gy (C, A) := h3.mpr (le_of_lt hneg)
      simp [h1, ht2, ht3]
    · have ht2 : edgeToggle gx gy (B, C) := h2.mpr (le_of_lt hpos)
      have ht3 : ¬edgeToggle gx gy (C, A) := fun ht => absurd (h3.mp ht) (not_le.mpr hpos)
      simp [h1, ht2, ht3]
  · -- F F F: all strictly below the average height is impossible
    exfalso
    push_neg at hA hB hC
    linarith

/-- Claim C9: the containment predicate implements the even-odd ray-casting
rule — every region with fewer than 3 boundary points rejects every query;
the centroid of every well-formed (nondegenerate) triangle region is
contained; and every query strictly outside the region's bounding box, in
any direction, is rejected. -/
theorem C9_contains_point_spec :
    (∀ (r : Region) (x y : ℚ), r.points.length < 3 → r.contains_point x y = false) ∧
    (∀ A B C : ℚ × ℚ,
      (B.1 - A.1) * (C.2 - A.2) - (B.2 - A.2) * (C.1 - A.1) ≠ 0 →
      (Region.mk [A, B, C]).contains_point ((A.1 + B.1 + C.1) / 3)
        ((A.2 + B.2 + C.2) / 3) = true) ∧
    (∀ (r : Region) (x y : ℚ),
      ((∀ p ∈ r.points, p.1 < x) ∨ (∀ p ∈ r.points, x < p.1) ∨
        (∀ p ∈ r.points, p.2 < y) ∨ (∀ p ∈ r.points, y < p.2)) →
      r.contains_point x y = false) :=
  ⟨contains_point_short, contains_centroid, contains_point_outside⟩

/-- Witness for C9: a two-point region rejects; the centroid of the
right triangle (0,0)-(4,0)-(0,4) is contained; a query far right of a
triangle is rejected. -/
theorem C9_contains_point_spec_witness :
    (Region.mk [(0, 0), (10, 0)]).contains_point 1 1 = false ∧
    (Region.mk [((0 : ℚ), (0 : ℚ)), (4, 0), (0, 4)]).contains_point
      ((0 + 4 + 0) / 3) ((0 + 0 + 4) / 3) = true ∧
    (Region.mk [((0 : ℚ), (0 : ℚ)), (10, 0), (0, 10)]).contains_point 99 5 = false :=
  ⟨C9_contains_point_spec.1 (Region.mk [(0, 0), (10, 0)]) 1 1 (by simp),
   C9_contains_point_spec.2.1 (0, 0) (4, 0) (0, 4) (by norm_num),
   C9_contains_point_spec.2.2 (Region.mk [((0 : ℚ), (0 : ℚ)), (10, 0), (0, 10)]) 99 5
     (Or.inl (by
       intro p hp
       fin_cases hp <;> norm_num))⟩

end T2Map
